import Mathlib

set_option autoImplicit false

/-!
Verification of the two data structures in this repository:

* an indexed min-heap over `Int` values (`ItemHeap`), whose operations
  `Insert`, `GetMin` and `Remove` are driven by the standard library heap
  algorithms (`heap.Push`, `heap.Fix`, `heap.Init`, i.e. sift-up/sift-down
  over an array with parent `(j-1)/2` and children `2i+1`, `2i+2`), with a
  value-to-position map kept in sync by `Swap`/`Push`/`Pop`;
* a 26-ary trie over lowercase ASCII bytes (`Trie`), with `Insert`,
  `Search`, `StartsWith`, soft `Delete` and DFS-based
  `CollectAllWordsStartingWith`.

Machine integers are modelled as `Int`/`Nat`; Go strings are byte lists
(`List Nat`); the Go map `map[int]int` is modelled as `Int → Option Nat`
(absence = `none`); a `panic` is modelled by an `Option` result being
`none`.  Out-of-range slice reads (which do not occur on the executions the
theorems quantify over) are modelled with `List.getD _ _ 0`.
-/

/-! ### Indexed min-heap: data model (src/unnamed/part_000) -/

structure ItemHeap where
  items : List Int
  index : Int → Option Nat

def NewItemHeap : ItemHeap :=
  { items := [], index := fun _ => none }

def ItemHeap.Len (h : ItemHeap) : Nat := h.items.length

def ItemHeap.Less (h : ItemHeap) (i j : Nat) : Bool :=
  h.items.getD i 0 < h.items.getD j 0

/-- Simultaneous swap of two list positions, as in
`h.items[i], h.items[j] = h.items[j], h.items[i]`. -/
def swapL (l : List Int) (i j : Nat) : List Int :=
  (l.set i (l.getD j 0)).set j (l.getD i 0)

/-- `Swap` exchanges two positions and re-points the index map at both
moved values (`h.index[h.items[i]] = i; h.index[h.items[j]] = j`). -/
def ItemHeap.Swap (h : ItemHeap) (i j : Nat) : ItemHeap :=
  let its := swapL h.items i j
  { items := its
    index := Function.update (Function.update h.index (its.getD i 0) (some i))
      (its.getD j 0) (some j) }

/-- `Push` records the new value's position (the pre-append length) and
appends it. -/
def ItemHeap.Push (h : ItemHeap) (x : Int) : ItemHeap :=
  { items := h.items ++ [x]
    index := Function.update h.index x (some h.items.length) }

/-- `Pop` removes and returns the last element, dropping it from the
index map. -/
def ItemHeap.Pop (h : ItemHeap) : Int × ItemHeap :=
  let n := h.items.length
  let item := h.items.getD (n - 1) 0
  (item, { items := h.items.take (n - 1), index := Function.update h.index item none })

/-- Sift-up loop of `container/heap` (`up`): while the element at `j` is
smaller than its parent `(j-1)/2`, swap them.  At `j = 0` Go computes
`i = (0-1)/2 = 0` and breaks on `i == j`. -/
def heapUp (h : ItemHeap) (j : Nat) : ItemHeap :=
  if h0 : j = 0 then h
  else
    let i := (j - 1) / 2
    if h.Less j i then heapUp (h.Swap i j) i
    else h
termination_by j
decreasing_by
  exact Nat.lt_of_le_of_lt (Nat.div_le_self _ 2) (Nat.pred_lt h0)

/-- Sift-down loop of `container/heap` (`down`): move the element at `i`
below its smaller child while that child is smaller; also returns the
final position (Go returns `i > i0`, recoverable from it). -/
def heapDown (h : ItemHeap) (i n : Nat) : ItemHeap × Nat :=
  if h1 : 2 * i + 1 < n then
    let j := if 2 * i + 2 < n ∧ h.Less (2 * i + 2) (2 * i + 1) then 2 * i + 2 else 2 * i + 1
    if h.Less j i then heapDown (h.Swap i j) j n
    else (h, i)
  else (h, i)
termination_by n - i
decreasing_by
  have hij : i < j := by simp only [j]; split <;> omega
  have hjn : j < n := by simp only [j]; split <;> omega
  omega

/-- `heap.Fix`: sift down, and if nothing moved, sift up. -/
def heapFix (h : ItemHeap) (i : Nat) : ItemHeap :=
  let d := heapDown h i h.Len
  if d.2 > i then d.1 else heapUp d.1 i

/-- Loop of `heap.Init`: sift down at `k-1, k-2, ..., 0`. -/
def heapInitAux (h : ItemHeap) : Nat → ItemHeap
  | 0 => h
  | k + 1 => heapInitAux (heapDown h k h.Len).1 k

/-- `Init` runs `heap.Init`: sift down at `n/2 - 1, ..., 0`. -/
def ItemHeap.Init (h : ItemHeap) : ItemHeap :=
  heapInitAux h (h.Len / 2)

/-- `Insert` runs `heap.Push`: append via `Push`, then sift up from the
last position. -/
def ItemHeap.Insert (h : ItemHeap) (x : Int) : ItemHeap :=
  let h1 := h.Push x
  heapUp h1 (h1.items.length - 1)

/-- `GetMin` returns the root `h.items[0]` without removing it. -/
def ItemHeap.GetMin (h : ItemHeap) : Int := h.items.getD 0 0

/-- `Remove`: look the value up in the index map; if absent return
`false`; otherwise swap it to the last slot, truncate, drop it from the
index, and if the vacated position is still in range run `heap.Fix`
there. -/
def ItemHeap.Remove (h : ItemHeap) (x : Int) : Bool × ItemHeap :=
  match h.index x with
  | none => (false, h)
  | some i =>
    let last := h.items.length - 1
    let h1 := h.Swap i last
    let h2 : ItemHeap :=
      { items := h1.items.take last, index := Function.update h1.index x none }
    if i < h2.items.length then (true, heapFix h2 i) else (true, h2)

/-! ### Trie: data model (src/trie.go) -/

/-- Trie node: a fixed 26-slot child array (one slot per lowercase
letter, `nil` = `none`) and an end-of-word flag. -/
inductive Node : Type where
  | mk : (Fin 26 → Option Node) → Bool → Node

def Node.children : Node → Fin 26 → Option Node
  | mk c _ => c

def Node.isEndOfWord : Node → Bool
  | mk _ e => e

def NewNode : Node := Node.mk (fun _ => none) false

structure Trie where
  root : Node

def NewTrie : Trie := { root := NewNode }

/-- `charToIndex` maps a lowercase letter byte to `0..25` and panics
(`none`) on any other byte. -/
def charToIndex (c : Nat) : Option (Fin 26) :=
  if h : 97 ≤ c ∧ c ≤ 122 then some ⟨c - 97, by omega⟩ else none

/-- `indexToChar` maps a child-array index back to its letter byte; its
panic branch is unreachable because the DFS only passes `0..25`. -/
def indexToChar (i : Fin 26) : Nat := 97 + i.val

/-- `Insert` walk: convert each byte (panic = `none`), create missing
children, and mark the final node.  The walk never exits early, so every
byte of the word is converted. -/
def insertAux : Node → List Nat → Option Node
  | n, [] => some (Node.mk n.children true)
  | n, c :: rest =>
    match charToIndex c with
    | none => none
    | some idx =>
      match insertAux (match n.children idx with | some ch => ch | none => NewNode) rest with
      | none => none
      | some ch' => some (Node.mk (Function.update n.children idx (some ch')) n.isEndOfWord)

/-- `Search` walk: convert each byte, return `false` at a missing child,
and at the end return the end-of-word flag. -/
def searchAux : Node → List Nat → Option Bool
  | n, [] => some n.isEndOfWord
  | n, c :: rest =>
    match charToIndex c with
    | none => none
    | some idx =>
      match n.children idx with
      | none => some false
      | some ch => searchAux ch rest

/-- `StartsWith` walk: like `Search` but any full path is a hit. -/
def startsWithAux : Node → List Nat → Option Bool
  | _, [] => some true
  | n, c :: rest =>
    match charToIndex c with
    | none => none
    | some idx =>
      match n.children idx with
      | none => some false
      | some ch => startsWithAux ch rest

/-- `Delete` walk: soft delete.  Missing child ⇒ `false`; at the end, if
the flag is unset ⇒ `false`, else clear it and return `true`. -/
def deleteAux : Node → List Nat → Option (Bool × Node)
  | n, [] =>
    if n.isEndOfWord then some (true, Node.mk n.children false) else some (false, n)
  | n, c :: rest =>
    match charToIndex c with
    | none => none
    | some idx =>
      match n.children idx with
      | none => some (false, n)
      | some ch =>
        match deleteAux ch rest with
        | none => none
        | some (b, ch') =>
          some (b, Node.mk (Function.update n.children idx (some ch')) n.isEndOfWord)

mutual
/-- `collectWordsDFS`: emit the current word if this node ends a word,
then recurse into the children in index (= alphabetical) order. -/
def collectWordsDFS : Node → List Nat → List (List Nat)
  | .mk c e, cur =>
    (if e then [cur] else []) ++
      (List.finRange 26).flatMap (fun i => collectChild (c i) (cur ++ [indexToChar i]))
def collectChild : Option Node → List Nat → List (List Nat)
  | none, _ => []
  | some n, cur => collectWordsDFS n cur
end

/-- Walk of `CollectAllWordsStartingWith`: follow the prefix (missing
child ⇒ empty result, bad byte ⇒ panic), then DFS from the reached node,
seeded with the whole original prefix. -/
def collectPathAux : Node → List Nat → List Nat → Option (List (List Nat))
  | n, [], p => some (collectWordsDFS n p)
  | n, c :: rest, p =>
    match charToIndex c with
    | none => none
    | some idx =>
      match n.children idx with
      | none => some []
      | some ch => collectPathAux ch rest p

def Trie.Insert (t : Trie) (word : List Nat) : Option Trie :=
  (insertAux t.root word).map Trie.mk

def Trie.Search (t : Trie) (word : List Nat) : Option Bool :=
  searchAux t.root word

def Trie.StartsWith (t : Trie) (p : List Nat) : Option Bool :=
  startsWithAux t.root p

def Trie.Delete (t : Trie) (word : List Nat) : Option (Bool × Trie) :=
  (deleteAux t.root word).map (fun r => (r.1, Trie.mk r.2))

def Trie.CollectAllWordsStartingWith (t : Trie) (p : List Nat) : Option (List (List Nat)) :=
  collectPathAux t.root p p

/-! ### Proof-layer definitions -/

/-- A byte is a lowercase ASCII letter. -/
def isLowerByte (c : Nat) : Bool := 97 ≤ c && c ≤ 122

/-- Every byte of the word is a lowercase letter. -/
def allLower (w : List Nat) : Bool := w.all isLowerByte

/-- Convert a byte word to child-array indices; `none` if any byte is not
a lowercase letter. -/
def toIdx : List Nat → Option (List (Fin 26))
  | [] => some []
  | c :: rest =>
    match charToIndex c, toIdx rest with
    | some i, some is => some (i :: is)
    | _, _ => none

/-- Convert an index word back to bytes. -/
def ofIdx (is : List (Fin 26)) : List Nat := is.map indexToChar

/-- Follow a path of child indices from a node. -/
def walkIdx : Node → List (Fin 26) → Option Node
  | n, [] => some n
  | n, i :: rest =>
    match n.children i with
    | none => none
    | some ch => walkIdx ch rest

/-- The index word ends at a node whose end-of-word flag is set. -/
def endsAt (n : Node) (is : List (Fin 26)) : Bool :=
  match walkIdx n is with
  | none => false
  | some m => m.isEndOfWord

/-- The full path for the index word exists. -/
def pathEx (n : Node) (is : List (Fin 26)) : Bool :=
  (walkIdx n is).isSome

/-- Index-level insert (the walk of `Insert` after byte conversion). -/
def insertIdx : Node → List (Fin 26) → Node
  | n, [] => Node.mk n.children true
  | n, i :: rest =>
    Node.mk
      (Function.update n.children i
        (some (insertIdx (match n.children i with | some ch => ch | none => NewNode) rest)))
      n.isEndOfWord

/-- Index-level soft delete (the walk of `Delete` after byte conversion). -/
def deleteIdx : Node → List (Fin 26) → Bool × Node
  | n, [] => if n.isEndOfWord then (true, Node.mk n.children false) else (false, n)
  | n, i :: rest =>
    match n.children i with
    | none => (false, n)
    | some ch =>
      let r := deleteIdx ch rest
      (r.1, Node.mk (Function.update n.children i (some r.2)) n.isEndOfWord)

/-- A trie operation: insert or delete one word. -/
inductive Op : Type where
  | ins : List Nat → Op
  | del : List Nat → Op

/-- The word of an operation. -/
def Op.word : Op → List Nat
  | ins w => w
  | del w => w

/-- Apply one operation to a trie (a panic leaves the trie unused), most
recent operation at the head of the history. -/
def runOp (t : Trie) : Op → Trie
  | Op.ins w => (t.Insert w).getD t
  | Op.del w => ((t.Delete w).map Prod.snd).getD t

/-- Run a history of operations (head = most recent) on a fresh trie. -/
def run : List Op → Trie
  | [] => NewTrie
  | o :: older => runOp (run older) o

/-- Every word of the history is all-lowercase. -/
def opsLower (H : List Op) : Bool := H.all (fun o => allLower o.word)

/-- The word was inserted and not subsequently deleted (head of the
history = most recent operation). -/
def liveAfter : List Op → List Nat → Bool
  | [], _ => false
  | Op.ins u :: older, w => if u = w then true else liveAfter older w
  | Op.del u :: older, w => if u = w then false else liveAfter older w

/-- `p` begins `w`. -/
def isPre (p w : List Nat) : Prop := ∃ s, w = p ++ s

/-- `p` begins `w` (index words). -/
def isPreI (p w : List (Fin 26)) : Prop := ∃ s, w = p ++ s

/-- Decidable test for `isPre`. -/
def isPreB : List Nat → List Nat → Bool
  | [], _ => true
  | _ :: _, [] => false
  | a :: p, b :: w => a = b && isPreB p w

/-- Some inserted (possibly since-deleted) word of the history has `p` as
a prefix. -/
def hasInsertedSuper (H : List Op) (p : List Nat) : Bool :=
  H.any (fun o => match o with
    | Op.ins u => isPreB p u
    | Op.del _ => false)

/-- Strict lexicographic order on byte words (shorter word first when one
begins the other). -/
def lexLt : List Nat → List Nat → Prop
  | [], [] => False
  | [], _ :: _ => True
  | _ :: _, [] => False
  | a :: s, b :: t => a < b ∨ (a = b ∧ lexLt s t)

/-- `p` begins `w` (index words, decidable form). -/
def isPreIB : List (Fin 26) → List (Fin 26) → Bool
  | [], _ => true
  | _ :: _, [] => false
  | a :: p, b :: w => a = b && isPreIB p w

/-- Common walk of `Search`/`StartsWith`/`Delete`/collect: outer `none`
models the `charToIndex` panic, inner `none` a missing child met before
the word ran out. -/
def walkBytes : Node → List Nat → Option (Option Node)
  | n, [] => some (some n)
  | n, c :: rest =>
    match charToIndex c with
    | none => none
    | some idx =>
      match n.children idx with
      | none => some none
      | some ch => walkBytes ch rest

/-- The byte-converting walk from `t` along `w` reaches a byte that is
not a lowercase letter: some position `i` holds a bad byte while all
earlier bytes are lowercase and their path exists in the trie. -/
def reachedBadByte (t : Node) (w : List Nat) : Prop :=
  ∃ i, i < w.length ∧ isLowerByte (w.getD i 0) = false ∧
    ∃ is, toIdx (w.take i) = some is ∧ pathEx t is = true

/-! ### Heap invariants and reachable states -/

/-- Binary-heap order on the backing list: each element is at least its
parent. -/
def heapOrd (l : List Int) : Prop :=
  ∀ j, 0 < j → j < l.length → l.getD ((j - 1) / 2) 0 ≤ l.getD j 0

/-- The index map and the item list are in sync: every position's value
maps back to that position, and every map entry points at a live slot
holding its key. -/
def Synced (h : ItemHeap) : Prop :=
  (∀ i, i < h.items.length → h.index (h.items.getD i 0) = some i) ∧
  (∀ v i, h.index v = some i → i < h.items.length ∧ h.items.getD i 0 = v)

/-- Sift-up precondition: every parent-child edge holds except possibly
the one above `j`, and (grand condition) the parent of `j` is at most
every child of `j`. -/
def almostUp (l : List Int) (j : Nat) : Prop :=
  (∀ k, 0 < k → k < l.length → k ≠ j → l.getD ((k - 1) / 2) 0 ≤ l.getD k 0) ∧
  (0 < j → ∀ c, c < l.length → (c - 1) / 2 = j → l.getD ((j - 1) / 2) 0 ≤ l.getD c 0)

/-- Sift-down precondition: every parent-child edge holds except possibly
those incident to `i` (above it and below it), and (grand condition) the
parent of `i` is at most every child of `i`. -/
def almostDown (l : List Int) (i : Nat) : Prop :=
  (∀ k, 0 < k → k < l.length → k ≠ i → (k - 1) / 2 ≠ i →
    l.getD ((k - 1) / 2) 0 ≤ l.getD k 0) ∧
  (0 < i → ∀ c, c < l.length → (c - 1) / 2 = i → l.getD ((i - 1) / 2) 0 ≤ l.getD c 0)

/-- Postcondition of the sift-down loop at start position `i`: structure
is preserved (length, index sync, membership), the final position is at
least `i`, an unmoved run returns the state unchanged with the edges
below `i` already in order, all edges apart from the one above `i` hold
afterwards, and after a move the edge above `i` holds as well. -/
def downPost (h : ItemHeap) (i : Nat) (r : ItemHeap × Nat) : Prop :=
  r.1.items.length = h.items.length ∧ Synced r.1 ∧
  (∀ x, x ∈ r.1.items ↔ x ∈ h.items) ∧
  i ≤ r.2 ∧
  (r.2 = i → r.1 = h ∧
    ∀ c, 0 < c → c < h.items.length → (c - 1) / 2 = i →
      h.items.getD i 0 ≤ h.items.getD c 0) ∧
  (∀ k, 0 < k → k < h.items.length → k ≠ i →
    r.1.items.getD ((k - 1) / 2) 0 ≤ r.1.items.getD k 0) ∧
  (r.2 ≠ i → 0 < i →
    r.1.items.getD ((i - 1) / 2) 0 ≤ r.1.items.getD i 0)

/-- The intermediate state of `Remove` after the found element (at `i`)
is swapped to the last slot, the list is truncated, and the key is
dropped from the index map. -/
def removeMid (h : ItemHeap) (x : Int) (i : Nat) : ItemHeap :=
  { items := (h.Swap i (h.items.length - 1)).items.take (h.items.length - 1)
    index := Function.update (h.Swap i (h.items.length - 1)).index x none }

/-- Heap states reachable from a fresh `ItemHeap` by inserting values not
currently present (covering all pairwise-distinct insertion sequences)
and removing arbitrary values. -/
inductive ReachableHeap : ItemHeap → Prop where
  | new : ReachableHeap NewItemHeap
  | insert (h : ItemHeap) (x : Int) : ReachableHeap h → x ∉ h.items →
      ReachableHeap (h.Insert x)
  | remove (h : ItemHeap) (x : Int) : ReachableHeap h →
      ReachableHeap (h.Remove x).2

/-! ### Basic lemmas: trie bytes and indices -/

@[simp]
theorem Node.children_mk (c : Fin 26 → Option Node) (e : Bool) :
    (Node.mk c e).children = c := rfl

@[simp]
theorem Node.isEndOfWord_mk (c : Fin 26 → Option Node) (e : Bool) :
    (Node.mk c e).isEndOfWord = e := rfl

theorem Node.eta (n : Node) : Node.mk n.children n.isEndOfWord = n := by
  cases n; rfl

theorem charToIndex_lower {c : Nat} (h : isLowerByte c = true) :
    charToIndex c = some ⟨c - 97, by simp [isLowerByte] at h; omega⟩ := by
  simp only [isLowerByte, Bool.and_eq_true, decide_eq_true_eq] at h
  simp [charToIndex, h.1, h.2]

theorem charToIndex_isSome_iff {c : Nat} :
    (charToIndex c).isSome = true ↔ isLowerByte c = true := by
  by_cases h : 97 ≤ c ∧ c ≤ 122 <;>
    simp [charToIndex, isLowerByte, h]

@[simp]
theorem charToIndex_indexToChar (i : Fin 26) : charToIndex (indexToChar i) = some i := by
  have hi : i.val < 26 := i.isLt
  simp only [charToIndex, indexToChar]
  rw [dif_pos (by omega)]
  congr 1
  apply Fin.ext
  show 97 + i.val - 97 = i.val
  omega

theorem isLowerByte_indexToChar (i : Fin 26) : isLowerByte (indexToChar i) = true := by
  have hi : i.val < 26 := i.isLt
  simp only [isLowerByte, indexToChar, Bool.and_eq_true, decide_eq_true_eq]
  omega

theorem charToIndex_inj {a b : Nat} {i : Fin 26} (ha : charToIndex a = some i)
    (hb : charToIndex b = some i) : a = b := by
  simp only [charToIndex] at ha hb
  split at ha
  case isTrue h1 =>
    split at hb
    case isTrue h2 =>
      have ha' := congrArg Fin.val (Option.some.inj ha)
      have hb' := congrArg Fin.val (Option.some.inj hb)
      simp only [] at ha' hb'
      omega
    case isFalse => cases hb
  case isFalse => cases ha

theorem toIdx_isSome_iff {w : List Nat} : (toIdx w).isSome = true ↔ allLower w = true := by
  induction w with
  | nil => simp [toIdx, allLower]
  | cons c rest ih =>
    simp only [toIdx, allLower, List.all_cons, Bool.and_eq_true]
    cases hc : charToIndex c with
    | none =>
      simp only [Option.isSome_none, Bool.false_eq_true, false_iff, not_and]
      intro hl
      rw [charToIndex_lower hl] at hc
      cases hc
    | some i =>
      cases hr : toIdx rest with
      | none =>
        simp only [Option.isSome_none, Bool.false_eq_true, false_iff, not_and]
        intro _ hrest
        rw [← allLower, ← ih, hr] at hrest
        cases hrest
      | some is =>
        simp only [Option.isSome_some, true_iff]
        constructor
        · rw [← charToIndex_isSome_iff, hc]; rfl
        · rw [← allLower, ← ih, hr]; rfl

theorem allLower_toIdx {w : List Nat} (h : allLower w = true) :
    ∃ is, toIdx w = some is := by
  have := toIdx_isSome_iff.2 h
  exact Option.isSome_iff_exists.1 this

theorem toIdx_ofIdx (is : List (Fin 26)) : toIdx (ofIdx is) = some is := by
  induction is with
  | nil => rfl
  | cons i rest ih =>
    simp only [ofIdx, List.map_cons, toIdx]
    rw [show (List.map indexToChar rest) = ofIdx rest from rfl, ih, charToIndex_indexToChar]

theorem ofIdx_toIdx {w : List Nat} {is : List (Fin 26)} (h : toIdx w = some is) :
    ofIdx is = w := by
  induction w generalizing is with
  | nil => cases h; rfl
  | cons c rest ih =>
    simp only [toIdx] at h
    cases hc : charToIndex c with
    | none => rw [hc] at h; cases h
    | some i =>
      rw [hc] at h
      cases hr : toIdx rest with
      | none => rw [hr] at h; cases h
      | some js =>
        rw [hr] at h
        cases h
        have hb : 97 ≤ c ∧ c ≤ 122 := by
          by_contra hcon
          simp [charToIndex, hcon] at hc
        simp only [charToIndex, dif_pos hb] at hc
        cases hc
        simp only [ofIdx, List.map_cons]
        rw [show List.map indexToChar js = ofIdx js from rfl, ih hr]
        congr 1
        show 97 + (c - 97) = c
        omega

theorem toIdx_inj {w u : List Nat} {is : List (Fin 26)} (hw : toIdx w = some is)
    (hu : toIdx u = some is) : w = u := by
  rw [← ofIdx_toIdx hw, ← ofIdx_toIdx hu]

theorem toIdx_append {a b : List Nat} {as bs : List (Fin 26)} (ha : toIdx a = some as)
    (hb : toIdx b = some bs) : toIdx (a ++ b) = some (as ++ bs) := by
  induction a generalizing as with
  | nil => cases ha; simpa using hb
  | cons c rest ih =>
    simp only [toIdx] at ha
    cases hc : charToIndex c with
    | none => rw [hc] at ha; cases ha
    | some i =>
      rw [hc] at ha
      cases hr : toIdx rest with
      | none => rw [hr] at ha; cases ha
      | some js =>
        rw [hr] at ha
        cases ha
        have hrec := ih hr
        simp only [List.cons_append, toIdx, hc]
        rw [show toIdx (rest.append b) = toIdx (rest ++ b) from rfl, hrec]

/-! ### Bridge lemmas: byte-level walks versus index-level walks -/

theorem searchAux_toIdx {w : List Nat} {is : List (Fin 26)} (hw : toIdx w = some is)
    (n : Node) : searchAux n w = some (endsAt n is) := by
  induction w generalizing is n with
  | nil => cases hw; rfl
  | cons c rest ih =>
    simp only [toIdx] at hw
    cases hc : charToIndex c with
    | none => rw [hc] at hw; cases hw
    | some i =>
      rw [hc] at hw
      cases hr : toIdx rest with
      | none => rw [hr] at hw; cases hw
      | some js =>
        rw [hr] at hw
        cases hw
        simp only [searchAux, hc, endsAt, walkIdx]
        cases hch : n.children i with
        | none => rfl
        | some ch => exact ih hr ch

theorem startsWithAux_toIdx {w : List Nat} {is : List (Fin 26)} (hw : toIdx w = some is)
    (n : Node) : startsWithAux n w = some (pathEx n is) := by
  induction w generalizing is n with
  | nil => cases hw; rfl
  | cons c rest ih =>
    simp only [toIdx] at hw
    cases hc : charToIndex c with
    | none => rw [hc] at hw; cases hw
    | some i =>
      rw [hc] at hw
      cases hr : toIdx rest with
      | none => rw [hr] at hw; cases hw
      | some js =>
        rw [hr] at hw
        cases hw
        simp only [startsWithAux, hc, pathEx, walkIdx]
        cases hch : n.children i with
        | none => rfl
        | some ch => exact ih hr ch

theorem insertAux_toIdx {w : List Nat} {is : List (Fin 26)} (hw : toIdx w = some is)
    (n : Node) : insertAux n w = some (insertIdx n is) := by
  induction w generalizing is n with
  | nil => cases hw; rfl
  | cons c rest ih =>
    simp only [toIdx] at hw
    cases hc : charToIndex c with
    | none => rw [hc] at hw; cases hw
    | some i =>
      rw [hc] at hw
      cases hr : toIdx rest with
      | none => rw [hr] at hw; cases hw
      | some js =>
        rw [hr] at hw
        cases hw
        simp only [insertAux, hc, insertIdx]
        rw [ih hr]

theorem insertAux_none_iff {w : List Nat} (n : Node) :
    insertAux n w = none ↔ toIdx w = none := by
  induction w generalizing n with
  | nil => simp [insertAux, toIdx]
  | cons c rest ih =>
    simp only [insertAux, toIdx]
    cases hc : charToIndex c with
    | none => simp
    | some i =>
      simp only []
      cases hr : toIdx rest with
      | none =>
        have : insertAux (match n.children i with | some ch => ch | none => NewNode) rest
            = none := (ih _).2 hr
        simp [this]
      | some js =>
        have hne : insertAux (match n.children i with | some ch => ch | none => NewNode) rest
            ≠ none := fun h => by rw [(ih _).1 h] at hr; cases hr
        cases hs : insertAux (match n.children i with | some ch => ch | none => NewNode) rest
          with
        | none => exact absurd hs hne
        | some m => simp [hs]

theorem deleteAux_toIdx {w : List Nat} {is : List (Fin 26)} (hw : toIdx w = some is)
    (n : Node) : deleteAux n w = some (deleteIdx n is) := by
  induction w generalizing is n with
  | nil =>
    cases hw
    simp only [deleteAux, deleteIdx]
    by_cases he : n.isEndOfWord = true <;> simp [he]
  | cons c rest ih =>
    simp only [toIdx] at hw
    cases hc : charToIndex c with
    | none => rw [hc] at hw; cases hw
    | some i =>
      rw [hc] at hw
      cases hr : toIdx rest with
      | none => rw [hr] at hw; cases hw
      | some js =>
        rw [hr] at hw
        cases hw
        simp only [deleteAux, hc, deleteIdx]
        cases hch : n.children i with
        | none => rfl
        | some ch => simp [ih hr]

theorem collectPathAux_toIdx {p : List Nat} {is : List (Fin 26)} (hp : toIdx p = some is)
    (n : Node) (q : List Nat) :
    collectPathAux n p q =
      some (match walkIdx n is with
        | none => []
        | some m => collectWordsDFS m q) := by
  induction p generalizing is n with
  | nil => cases hp; rfl
  | cons c rest ih =>
    simp only [toIdx] at hp
    cases hc : charToIndex c with
    | none => rw [hc] at hp; cases hp
    | some i =>
      rw [hc] at hp
      cases hr : toIdx rest with
      | none => rw [hr] at hp; cases hp
      | some js =>
        rw [hr] at hp
        cases hp
        simp only [collectPathAux, hc, walkIdx]
        cases hch : n.children i with
        | none => rfl
        | some ch => exact ih hr ch

/-! ### Index-level semantics of the trie operations -/

theorem endsAt_NewNode (is : List (Fin 26)) : endsAt NewNode is = false := by
  cases is with
  | nil => rfl
  | cons i rest => simp [endsAt, walkIdx, NewNode, Node.children]

theorem pathEx_NewNode (is : List (Fin 26)) : pathEx NewNode is = decide (is = []) := by
  cases is with
  | nil => rfl
  | cons i rest => simp [pathEx, walkIdx, NewNode, Node.children]

theorem endsAt_insertIdx (u : List (Fin 26)) :
    ∀ (n : Node) (v : List (Fin 26)),
      endsAt (insertIdx n u) v = if v = u then true else endsAt n v := by
  induction u with
  | nil =>
    intro n v
    cases v with
    | nil => simp [insertIdx, endsAt, walkIdx]
    | cons j vr => simp [insertIdx, endsAt, walkIdx, Node.children]
  | cons i ur ih =>
    intro n v
    cases v with
    | nil => simp [insertIdx, endsAt, walkIdx]
    | cons j vr =>
      by_cases hji : j = i
      · subst hji
        simp only [insertIdx, endsAt, walkIdx, Node.children_mk, Function.update_same]
        have hrec := ih (match n.children j with | some ch => ch | none => NewNode) vr
        simp only [endsAt] at hrec
        rw [hrec]
        by_cases hv : vr = ur
        · simp [hv]
        · simp only [if_neg hv, if_neg (by simp [hv] : ¬(j :: vr = j :: ur))]
          cases hch : n.children j with
          | none => exact endsAt_NewNode vr
          | some ch => simp [endsAt]
      · simp only [insertIdx, endsAt, walkIdx, Node.children_mk,
          Function.update_noteq hji, if_neg (by simp [hji] : ¬(j :: vr = i :: ur))]

theorem pathEx_insertIdx (u : List (Fin 26)) :
    ∀ (n : Node) (v : List (Fin 26)),
      pathEx (insertIdx n u) v = (isPreIB v u || pathEx n v) := by
  induction u with
  | nil =>
    intro n v
    cases v with
    | nil => simp [insertIdx, pathEx, walkIdx, isPreIB]
    | cons j vr => simp [insertIdx, pathEx, walkIdx, Node.children, isPreIB]
  | cons i ur ih =>
    intro n v
    cases v with
    | nil => simp [insertIdx, pathEx, walkIdx, isPreIB]
    | cons j vr =>
      by_cases hji : j = i
      · subst hji
        simp only [insertIdx, pathEx, walkIdx, Node.children_mk, Function.update_same,
          isPreIB, decide_True, Bool.true_and]
        have hrec := ih (match n.children j with | some ch => ch | none => NewNode) vr
        simp only [pathEx] at hrec
        rw [hrec]
        cases hch : n.children j with
        | none =>
          show (isPreIB vr ur || pathEx NewNode vr) = (isPreIB vr ur || Option.isSome none)
          rw [pathEx_NewNode]
          cases vr with
          | nil => simp [isPreIB]
          | cons a b => simp
        | some ch => simp
      · simp only [insertIdx, pathEx, walkIdx, Node.children_mk,
          Function.update_noteq hji, isPreIB]
        have hf : (decide (j = i) && isPreIB vr ur) = false := by
          simp [hji]
        rw [hf, Bool.false_or]

theorem deleteIdx_fst (u : List (Fin 26)) :
    ∀ n : Node, (deleteIdx n u).1 = endsAt n u := by
  induction u with
  | nil =>
    intro n
    by_cases he : n.isEndOfWord = true <;> simp [deleteIdx, endsAt, walkIdx, he]
  | cons i ur ih =>
    intro n
    simp only [deleteIdx, endsAt, walkIdx]
    cases hch : n.children i with
    | none => rfl
    | some ch => simpa [endsAt] using ih ch

theorem endsAt_deleteIdx (u : List (Fin 26)) :
    ∀ (n : Node) (v : List (Fin 26)),
      endsAt (deleteIdx n u).2 v = if v = u then false else endsAt n v := by
  induction u with
  | nil =>
    intro n v
    by_cases he : n.isEndOfWord = true
    · cases v with
      | nil => simp [deleteIdx, endsAt, walkIdx, he]
      | cons j vr => simp [deleteIdx, endsAt, walkIdx, Node.children, he]
    · cases v with
      | nil =>
        simp only [Bool.not_eq_true] at he
        simp [deleteIdx, endsAt, walkIdx, he]
      | cons j vr => simp [deleteIdx, he]
  | cons i ur ih =>
    intro n v
    simp only [deleteIdx]
    cases hch : n.children i with
    | none =>
      simp only []
      cases v with
      | nil => simp [endsAt, walkIdx]
      | cons j vr =>
        by_cases hji : j = i
        · subst hji
          by_cases hv : vr = ur
          · subst hv
            simp [endsAt, walkIdx, hch]
          · simp [endsAt, walkIdx, hch, hv]
        · simp [hji]
    | some ch =>
      simp only []
      cases v with
      | nil => simp [endsAt, walkIdx]
      | cons j vr =>
        by_cases hji : j = i
        · subst hji
          simp only [endsAt, walkIdx, Node.children_mk, Function.update_same]
          have hrec := ih ch vr
          simp only [endsAt] at hrec
          rw [hrec]
          by_cases hv : vr = ur
          · simp [hv]
          · simp [hv, hch]
        · simp only [endsAt, walkIdx, Node.children_mk, Function.update_noteq hji,
            if_neg (by simp [hji] : ¬(j :: vr = i :: ur))]

theorem pathEx_deleteIdx (u : List (Fin 26)) :
    ∀ (n : Node) (v : List (Fin 26)), pathEx (deleteIdx n u).2 v = pathEx n v := by
  induction u with
  | nil =>
    intro n v
    by_cases he : n.isEndOfWord = true
    · cases v with
      | nil => simp [deleteIdx, pathEx, walkIdx, he]
      | cons j vr => simp [deleteIdx, pathEx, walkIdx, Node.children, he]
    · simp [deleteIdx, he]
  | cons i ur ih =>
    intro n v
    simp only [deleteIdx]
    cases hch : n.children i with
    | none => simp
    | some ch =>
      simp only []
      cases v with
      | nil => simp [pathEx, walkIdx]
      | cons j vr =>
        by_cases hji : j = i
        · subst hji
          simp only [pathEx, walkIdx, Node.children_mk, Function.update_same, hch]
          have hrec := ih ch vr
          simp only [pathEx] at hrec
          rw [hrec]
        · simp only [pathEx, walkIdx, Node.children_mk, Function.update_noteq hji]

theorem deleteIdx_not_found (u : List (Fin 26)) :
    ∀ n : Node, endsAt n u = false → (deleteIdx n u).2 = n := by
  induction u with
  | nil =>
    intro n he
    simp only [endsAt, walkIdx] at he
    simp [deleteIdx, he]
  | cons i ur ih =>
    intro n he
    simp only [endsAt, walkIdx] at he
    simp only [deleteIdx]
    cases hch : n.children i with
    | none => rfl
    | some ch =>
      rw [hch] at he
      have : endsAt ch ur = false := by simpa [endsAt] using he
      simp only [ih ch this, hch]
      rw [← hch, Function.update_eq_self, Node.eta]

/-! ### Characterizing a trie built by a history of operations -/

theorem opsLower_cons {o : Op} {H : List Op} (h : opsLower (o :: H) = true) :
    allLower o.word = true ∧ opsLower H = true := by
  simp only [opsLower, List.all_cons, Bool.and_eq_true] at h
  exact ⟨h.1, by simpa [opsLower] using h.2⟩

theorem run_ins {u : List Nat} {us : List (Fin 26)} (hus : toIdx u = some us)
    (older : List Op) :
    run (Op.ins u :: older) = Trie.mk (insertIdx (run older).root us) := by
  simp [run, runOp, Trie.Insert, insertAux_toIdx hus]

theorem run_del {u : List Nat} {us : List (Fin 26)} (hus : toIdx u = some us)
    (older : List Op) :
    run (Op.del u :: older) = Trie.mk (deleteIdx (run older).root us).2 := by
  simp [run, runOp, Trie.Delete, deleteAux_toIdx hus]

theorem run_endsAt :
    ∀ (H : List Op), opsLower H = true → ∀ {w : List Nat} {is : List (Fin 26)},
      toIdx w = some is → endsAt (run H).root is = liveAfter H w := by
  intro H
  induction H with
  | nil =>
    intro _ w is hw
    exact endsAt_NewNode is
  | cons o older ih =>
    intro hH w is hw
    obtain ⟨ho, holder⟩ := opsLower_cons hH
    cases o with
    | ins u =>
      have ho' : allLower u = true := ho
      obtain ⟨us, hus⟩ := allLower_toIdx ho'
      rw [run_ins hus older]
      show endsAt (insertIdx (run older).root us) is = liveAfter (Op.ins u :: older) w
      rw [endsAt_insertIdx]
      show _ = if u = w then true else liveAfter older w
      by_cases huw : u = w
      · subst huw
        rw [hw] at hus
        cases hus
        simp
      · have hne : is ≠ us := fun h => huw (toIdx_inj hus (h ▸ hw))
        rw [if_neg hne, if_neg huw, ih holder hw]
    | del u =>
      have ho' : allLower u = true := ho
      obtain ⟨us, hus⟩ := allLower_toIdx ho'
      rw [run_del hus older]
      show endsAt (deleteIdx (run older).root us).2 is = liveAfter (Op.del u :: older) w
      rw [endsAt_deleteIdx]
      show _ = if u = w then false else liveAfter older w
      by_cases huw : u = w
      · subst huw
        rw [hw] at hus
        cases hus
        simp
      · have hne : is ≠ us := fun h => huw (toIdx_inj hus (h ▸ hw))
        rw [if_neg hne, if_neg huw, ih holder hw]

theorem isPreB_toIdx :
    ∀ {p u : List Nat} {ps us : List (Fin 26)}, toIdx p = some ps → toIdx u = some us →
      isPreB p u = isPreIB ps us := by
  intro p
  induction p with
  | nil =>
    intro u ps us hp hu
    cases hp
    rfl
  | cons a p' ih =>
    intro u ps us hp hu
    simp only [toIdx] at hp
    cases ha : charToIndex a with
    | none => rw [ha] at hp; cases hp
    | some ia =>
      rw [ha] at hp
      cases hp' : toIdx p' with
      | none => rw [hp'] at hp; cases hp
      | some ps' =>
        rw [hp'] at hp
        cases hp
        cases u with
        | nil =>
          cases hu
          rfl
        | cons b u' =>
          simp only [toIdx] at hu
          cases hb : charToIndex b with
          | none => rw [hb] at hu; cases hu
          | some ib =>
            rw [hb] at hu
            cases hu' : toIdx u' with
            | none => rw [hu'] at hu; cases hu
            | some us' =>
              rw [hu'] at hu
              cases hu
              simp only [isPreB, isPreIB, ih hp' hu']
              by_cases hab : a = b
              · subst hab
                rw [hb] at ha
                cases ha
                simp
              · have : ia ≠ ib := fun h => hab (charToIndex_inj ha (h ▸ hb))
                simp [hab, this]

theorem run_pathEx :
    ∀ (H : List Op), opsLower H = true → ∀ {p : List Nat} {is : List (Fin 26)},
      toIdx p = some is →
      pathEx (run H).root is = (decide (is = []) || hasInsertedSuper H p) := by
  intro H
  induction H with
  | nil =>
    intro _ p is hp
    show pathEx NewNode is = _
    rw [pathEx_NewNode]
    simp [hasInsertedSuper]
  | cons o older ih =>
    intro hH p is hp
    obtain ⟨ho, holder⟩ := opsLower_cons hH
    cases o with
    | ins u =>
      have ho' : allLower u = true := ho
      obtain ⟨us, hus⟩ := allLower_toIdx ho'
      rw [run_ins hus older]
      show pathEx (insertIdx (run older).root us) is = _
      rw [pathEx_insertIdx, ih holder hp]
      have hh : hasInsertedSuper (Op.ins u :: older) p =
          (isPreB p u || hasInsertedSuper older p) := by
        simp [hasInsertedSuper]
      rw [hh, isPreB_toIdx hp hus]
      cases isPreIB is us <;> cases (decide (is = [])) <;>
        cases hasInsertedSuper older p <;> rfl
    | del u =>
      have ho' : allLower u = true := ho
      obtain ⟨us, hus⟩ := allLower_toIdx ho'
      rw [run_del hus older]
      show pathEx (deleteIdx (run older).root us).2 is = _
      rw [pathEx_deleteIdx, ih holder hp]
      have hh : hasInsertedSuper (Op.del u :: older) p = hasInsertedSuper older p := by
        simp [hasInsertedSuper]
      rw [hh]

theorem toIdx_nil_iff {p : List Nat} {is : List (Fin 26)} (h : toIdx p = some is) :
    (is = []) ↔ (p = []) := by
  constructor
  · intro hi
    subst hi
    have := ofIdx_toIdx h
    simpa [ofIdx] using this.symm
  · intro hp
    subst hp
    cases h
    rfl

/-! ### Claims C4, C6, C7, C8, C10 -/

/-- C4: after any sequence of Insert/Delete operations on all-lowercase
words applied to a fresh trie, `Search w` returns `true` exactly when `w`
was inserted and not subsequently deleted (a path existing only as a
prefix of another word is not a hit). -/
theorem c4_search_iff_live (H : List Op) (hH : opsLower H = true)
    (w : List Nat) (hw : allLower w = true) :
    Trie.Search (run H) w = some (liveAfter H w) := by
  obtain ⟨is, his⟩ := allLower_toIdx hw
  rw [Trie.Search, searchAux_toIdx his, run_endsAt H hH his]

theorem c4_search_iff_live_witness :
    opsLower [Op.ins [97], Op.del [98], Op.ins [98]] = true ∧ allLower [98] = true ∧
      Trie.Search (run [Op.ins [97], Op.del [98], Op.ins [98]]) [98] =
        some (liveAfter [Op.ins [97], Op.del [98], Op.ins [98]] [98]) :=
  ⟨by decide, by decide,
    c4_search_iff_live [Op.ins [97], Op.del [98], Op.ins [98]] (by decide) [98] (by decide)⟩

/-- C6: `Delete` is a pure soft delete.  If the word is not currently a
searched word (missing path or unset flag), it returns `false` changing
nothing; otherwise it returns `true`, only clears that single end-of-word
flag, and changes no other `Search` result and no `StartsWith` result. -/
theorem c6_delete_soft (t : Trie) (w : List Nat) (hw : allLower w = true) :
    ∃ b t', Trie.Delete t w = some (b, t') ∧
      (Trie.Search t w = some false → b = false ∧ t' = t) ∧
      (Trie.Search t w = some true → b = true ∧ Trie.Search t' w = some false ∧
        (∀ u, allLower u = true → u ≠ w → Trie.Search t' u = Trie.Search t u) ∧
        (∀ p, allLower p = true → Trie.StartsWith t' p = Trie.StartsWith t p)) := by
  obtain ⟨is, his⟩ := allLower_toIdx hw
  refine ⟨(deleteIdx t.root is).1, Trie.mk (deleteIdx t.root is).2, ?_, ?_, ?_⟩
  · simp [Trie.Delete, deleteAux_toIdx his]
  · intro hs
    rw [Trie.Search, searchAux_toIdx his] at hs
    have he : endsAt t.root is = false := by simpa using hs
    refine ⟨by rw [deleteIdx_fst, he], ?_⟩
    rw [deleteIdx_not_found is t.root he]
  · intro hs
    rw [Trie.Search, searchAux_toIdx his] at hs
    have he : endsAt t.root is = true := by simpa using hs
    refine ⟨by rw [deleteIdx_fst, he], ?_, ?_, ?_⟩
    · show searchAux (deleteIdx t.root is).2 w = some false
      rw [searchAux_toIdx his, endsAt_deleteIdx]
      simp
    · intro u hu hne
      obtain ⟨us, hus⟩ := allLower_toIdx hu
      show searchAux (deleteIdx t.root is).2 u = searchAux t.root u
      rw [searchAux_toIdx hus, searchAux_toIdx hus, endsAt_deleteIdx]
      have hneq : us ≠ is := fun h => hne (toIdx_inj hus (h ▸ his))
      rw [if_neg hneq]
    · intro p hp
      obtain ⟨ps, hps⟩ := allLower_toIdx hp
      show startsWithAux (deleteIdx t.root is).2 p = startsWithAux t.root p
      rw [startsWithAux_toIdx hps, startsWithAux_toIdx hps, pathEx_deleteIdx]

theorem c6_delete_soft_witness :
    allLower [97, 112, 112] = true ∧
      ∃ b t', Trie.Delete (run [Op.ins [97, 112, 112]]) [97, 112, 112] = some (b, t') ∧
        (Trie.Search (run [Op.ins [97, 112, 112]]) [97, 112, 112] = some false →
          b = false ∧ t' = run [Op.ins [97, 112, 112]]) ∧
        (Trie.Search (run [Op.ins [97, 112, 112]]) [97, 112, 112] = some true →
          b = true ∧ Trie.Search t' [97, 112, 112] = some false ∧
          (∀ u, allLower u = true → u ≠ [97, 112, 112] →
            Trie.Search t' u = Trie.Search (run [Op.ins [97, 112, 112]]) u) ∧
          (∀ p, allLower p = true →
            Trie.StartsWith t' p = Trie.StartsWith (run [Op.ins [97, 112, 112]]) p)) :=
  ⟨by decide, c6_delete_soft (run [Op.ins [97, 112, 112]]) [97, 112, 112] (by decide)⟩

/-- C7, counterexample: on a fresh trie (empty history) the empty prefix
is a lowercase prefix, `StartsWith` answers `true`, yet no inserted word
has it as a prefix — the claimed equivalence fails at `p = ""`. -/
theorem c7_counterexample :
    Trie.StartsWith (run []) [] = some true ∧ hasInsertedSuper [] [] = false := by
  constructor
  · rfl
  · rfl

/-- C7, amended: `StartsWith p` is `true` iff `p` is empty or some
inserted (possibly since-deleted) word of the history has `p` as a
prefix. -/
theorem c7_startsWith_amended (H : List Op) (hH : opsLower H = true)
    (p : List Nat) (hp : allLower p = true) :
    Trie.StartsWith (run H) p = some (decide (p = []) || hasInsertedSuper H p) := by
  obtain ⟨is, his⟩ := allLower_toIdx hp
  rw [Trie.StartsWith, startsWithAux_toIdx his, run_pathEx H hH his,
    show (decide (is = []) : Bool) = decide (p = []) from
      decide_eq_decide.2 (toIdx_nil_iff his)]

theorem c7_startsWith_amended_witness :
    opsLower [Op.del [97, 98], Op.ins [97, 98]] = true ∧ allLower [97] = true ∧
      Trie.StartsWith (run [Op.del [97, 98], Op.ins [97, 98]]) [97] =
        some (decide (([97] : List Nat) = []) ||
          hasInsertedSuper [Op.del [97, 98], Op.ins [97, 98]] [97]) :=
  ⟨by decide, by decide,
    c7_startsWith_amended [Op.del [97, 98], Op.ins [97, 98]] (by decide) [97] (by decide)⟩

/-- C8, counterexample: after inserting just the word "a", the path
spelling "ab" does not exist, although a prefix of "ab" (namely "a"
itself) was inserted — the claimed path-existence equivalence fails. -/
theorem c8_counterexample :
    toIdx [97, 98] = some [(0 : Fin 26), (1 : Fin 26)] ∧
    pathEx (run [Op.ins [97]]).root [(0 : Fin 26), (1 : Fin 26)] = false ∧
    ([Op.ins [97]].any (fun o => match o with
      | Op.ins u => isPreB u [97, 98]
      | Op.del _ => false)) = true := by
  refine ⟨by decide, by decide, by decide⟩

/-- C8, amended: a path spelling `W` exists iff `W` is empty or `W` is a
prefix of some inserted (possibly since-deleted) word, and the
end-of-word flag at `W` is set iff `W` itself was inserted and not
subsequently deleted. -/
theorem c8_invariant_amended (H : List Op) (hH : opsLower H = true)
    (W : List Nat) (is : List (Fin 26)) (hW : toIdx W = some is) :
    pathEx (run H).root is = (decide (W = []) || hasInsertedSuper H W) ∧
    endsAt (run H).root is = liveAfter H W := by
  refine ⟨?_, run_endsAt H hH hW⟩
  rw [run_pathEx H hH hW,
    show (decide (is = []) : Bool) = decide (W = []) from
      decide_eq_decide.2 (toIdx_nil_iff hW)]

theorem c8_invariant_amended_witness :
    opsLower [Op.ins [97, 98]] = true ∧ toIdx [97] = some [(0 : Fin 26)] ∧
      (pathEx (run [Op.ins [97, 98]]).root [(0 : Fin 26)] =
        (decide (([97] : List Nat) = []) || hasInsertedSuper [Op.ins [97, 98]] [97]) ∧
      endsAt (run [Op.ins [97, 98]]).root [(0 : Fin 26)] =
        liveAfter [Op.ins [97, 98]] [97]) :=
  ⟨by decide, by decide,
    c8_invariant_amended [Op.ins [97, 98]] (by decide) [97] [(0 : Fin 26)] (by decide)⟩

/-- C10: `StartsWith ""` is `true` on every trie, even a fresh one;
`Search ""` is `false` on a fresh trie; and `Insert ""` marks the root
node itself end-of-word (touching no children), after which `Search ""`
is `true`. -/
theorem c10_empty_word (t : Trie) :
    Trie.StartsWith t [] = some true ∧
    Trie.Search NewTrie [] = some false ∧
    ∃ t', Trie.Insert t [] = some t' ∧ t'.root.isEndOfWord = true ∧
      t'.root.children = t.root.children ∧ Trie.Search t' [] = some true := by
  exact ⟨rfl, rfl, Trie.mk (Node.mk t.root.children true), rfl, rfl, rfl, rfl⟩

/-! ### Claim C9: panic behaviour on non-lowercase input -/

theorem searchAux_eq_walkBytes (w : List Nat) :
    ∀ n : Node, searchAux n w = (walkBytes n w).map (fun r =>
      match r with
      | none => false
      | some m => m.isEndOfWord) := by
  induction w with
  | nil => intro n; rfl
  | cons c rest ih =>
    intro n
    simp only [searchAux, walkBytes]
    cases hc : charToIndex c with
    | none => rfl
    | some idx =>
      cases hch : n.children idx with
      | none => simp [hch]
      | some ch => simp [hch, ih ch]

theorem startsWithAux_eq_walkBytes (w : List Nat) :
    ∀ n : Node, startsWithAux n w = (walkBytes n w).map (fun r => r.isSome) := by
  induction w with
  | nil => intro n; rfl
  | cons c rest ih =>
    intro n
    simp only [startsWithAux, walkBytes]
    cases hc : charToIndex c with
    | none => rfl
    | some idx =>
      cases hch : n.children idx with
      | none => simp [hch]
      | some ch => simp [hch, ih ch]

theorem deleteAux_none_iff (w : List Nat) :
    ∀ n : Node, (deleteAux n w = none ↔ walkBytes n w = none) := by
  induction w with
  | nil =>
    intro n
    by_cases he : n.isEndOfWord = true <;> simp [deleteAux, walkBytes, he]
  | cons c rest ih =>
    intro n
    simp only [deleteAux, walkBytes]
    cases hc : charToIndex c with
    | none => simp
    | some idx =>
      cases hch : n.children idx with
      | none => simp [hch]
      | some ch =>
        simp only [hch]
        cases hd : deleteAux ch rest with
        | none =>
          have hwn := (ih ch).1 hd
          simp [hd, hwn]
        | some r =>
          have hne : walkBytes ch rest ≠ none := fun hwn => by
            rw [(ih ch).2 hwn] at hd
            cases hd
          obtain ⟨b, ch'⟩ := r
          cases hw : walkBytes ch rest with
          | none => exact absurd hw hne
          | some r' => simp [hd, hw]

theorem collectPathAux_none_iff (w : List Nat) :
    ∀ (n : Node) (p : List Nat), (collectPathAux n w p = none ↔ walkBytes n w = none) := by
  induction w with
  | nil => intro n p; simp [collectPathAux, walkBytes]
  | cons c rest ih =>
    intro n p
    simp only [collectPathAux, walkBytes]
    cases hc : charToIndex c with
    | none => simp
    | some idx =>
      cases hch : n.children idx with
      | none => simp [hch]
      | some ch => simp only [hch]; exact ih ch p

theorem walkBytes_none_iff (w : List Nat) :
    ∀ n : Node, (walkBytes n w = none ↔ reachedBadByte n w) := by
  induction w with
  | nil =>
    intro n
    simp [walkBytes, reachedBadByte]
  | cons c rest ih =>
    intro n
    simp only [walkBytes]
    cases hc : charToIndex c with
    | none =>
      simp only [true_iff]
      refine ⟨0, by simp, ?_, [], by simp [toIdx], rfl⟩
      cases hl : isLowerByte c with
      | false => simpa using hl
      | true => rw [charToIndex_lower hl] at hc; cases hc
    | some idx =>
      have hcl : isLowerByte c = true := by
        rw [← charToIndex_isSome_iff, hc]
        rfl
      cases hch : n.children idx with
      | none =>
        simp only [hch, reduceCtorEq, false_iff]
        rintro ⟨i, hi, hbad, is, htake, hpath⟩
        cases i with
        | zero =>
          simp only [List.getD_cons_zero] at hbad
          rw [hcl] at hbad
          cases hbad
        | succ k =>
          simp only [List.take_succ_cons, toIdx, hc] at htake
          cases hk : toIdx (rest.take k) with
          | none => rw [hk] at htake; cases htake
          | some is' =>
            rw [hk] at htake
            cases htake
            simp [pathEx, walkIdx, hch] at hpath
      | some ch =>
        simp only [hch]
        rw [ih ch]
        constructor
        · rintro ⟨k, hk, hbad, is', htake, hpath⟩
          refine ⟨k + 1, by simpa using hk, by simpa using hbad, idx :: is', ?_, ?_⟩
          · simp [List.take_succ_cons, toIdx, hc, htake]
          · simpa [pathEx, walkIdx, hch] using hpath
        · rintro ⟨i, hi, hbad, is, htake, hpath⟩
          cases i with
          | zero =>
            simp only [List.getD_cons_zero] at hbad
            rw [hcl] at hbad
            cases hbad
          | succ k =>
            simp only [List.take_succ_cons, toIdx, hc] at htake
            cases hk : toIdx (rest.take k) with
            | none => rw [hk] at htake; cases htake
            | some is' =>
              rw [hk] at htake
              cases htake
              refine ⟨k, by simpa using hi, by simpa using hbad, is', hk, ?_⟩
              simpa [pathEx, walkIdx, hch] using hpath

/-- C9: with all-lowercase input every trie operation completes normally
(the `charToIndex` panic branch is unreachable); `Insert` panics exactly
when some byte is not lowercase, and the walking operations (`Search`,
`StartsWith`, `Delete`, `CollectAllWordsStartingWith`) panic exactly when
a non-lowercase byte is reached on the traversed path. -/
theorem c9_panic (t : Trie) (w : List Nat) :
    (allLower w = true →
      (Trie.Insert t w).isSome = true ∧ (Trie.Search t w).isSome = true ∧
      (Trie.StartsWith t w).isSome = true ∧ (Trie.Delete t w).isSome = true ∧
      (Trie.CollectAllWordsStartingWith t w).isSome = true) ∧
    (Trie.Insert t w = none ↔ allLower w = false) ∧
    (Trie.Search t w = none ↔ reachedBadByte t.root w) ∧
    (Trie.StartsWith t w = none ↔ reachedBadByte t.root w) ∧
    (Trie.Delete t w = none ↔ reachedBadByte t.root w) ∧
    (Trie.CollectAllWordsStartingWith t w = none ↔ reachedBadByte t.root w) := by
  refine ⟨?_, ?_, ?_, ?_, ?_, ?_⟩
  · intro hl
    obtain ⟨is, his⟩ := allLower_toIdx hl
    refine ⟨?_, ?_, ?_, ?_, ?_⟩
    · simp [Trie.Insert, insertAux_toIdx his]
    · simp [Trie.Search, searchAux_toIdx his]
    · simp [Trie.StartsWith, startsWithAux_toIdx his]
    · simp [Trie.Delete, deleteAux_toIdx his]
    · simp [Trie.CollectAllWordsStartingWith, collectPathAux_toIdx his]
  · rw [Trie.Insert, Option.map_eq_none', insertAux_none_iff]
    constructor
    · intro h
      cases hl : allLower w with
      | false => rfl
      | true =>
        obtain ⟨is, his⟩ := allLower_toIdx hl
        rw [his] at h
        cases h
    · intro h
      cases ht : toIdx w with
      | none => rfl
      | some is =>
        have hs : (toIdx w).isSome = true := by rw [ht]; rfl
        rw [toIdx_isSome_iff, h] at hs
        cases hs
  · rw [Trie.Search, searchAux_eq_walkBytes, Option.map_eq_none', walkBytes_none_iff]
  · rw [Trie.StartsWith, startsWithAux_eq_walkBytes, Option.map_eq_none', walkBytes_none_iff]
  · rw [Trie.Delete, Option.map_eq_none', deleteAux_none_iff, walkBytes_none_iff]
  · rw [Trie.CollectAllWordsStartingWith, collectPathAux_none_iff, walkBytes_none_iff]

theorem c9_panic_witness :
    allLower [97, 122] = true ∧
      ((Trie.Insert NewTrie [97, 122]).isSome = true ∧
        (Trie.Search NewTrie [97, 122]).isSome = true ∧
        (Trie.StartsWith NewTrie [97, 122]).isSome = true ∧
        (Trie.Delete NewTrie [97, 122]).isSome = true ∧
        (Trie.CollectAllWordsStartingWith NewTrie [97, 122]).isSome = true) ∧
      (Trie.Insert NewTrie [65] = none ↔ allLower [65] = false) :=
  ⟨by decide, (c9_panic NewTrie [97, 122]).1 (by decide), (c9_panic NewTrie [65]).2.1⟩

/-! ### Claim C5: the DFS collection -/

theorem Node.ind (P : Node → Prop)
    (h : ∀ c e, (∀ i n, c i = some n → P n) → P (Node.mk c e)) : ∀ n, P n := by
  intro n
  refine Node.rec (motive_1 := P) (motive_2 := fun o => ∀ m, o = some m → P m) ?_ ?_ ?_ n
  · intro c e ih
    exact h c e (fun i m him => ih i m him)
  · intro m hm
    exact absurd hm (by simp)
  · intro v hv m hm
    cases hm
    exact hv

theorem collectWordsDFS_mk (c : Fin 26 → Option Node) (e : Bool) (cur : List Nat) :
    collectWordsDFS (Node.mk c e) cur =
      (if e then [cur] else []) ++
        (List.finRange 26).flatMap (fun i => collectChild (c i) (cur ++ [indexToChar i])) :=
  rfl

theorem collectChild_none (cur : List Nat) : collectChild none cur = [] := rfl

theorem collectChild_some (m : Node) (cur : List Nat) :
    collectChild (some m) cur = collectWordsDFS m cur := rfl

theorem walkIdx_append : ∀ (a : List (Fin 26)) (n : Node) (b : List (Fin 26)),
    walkIdx n (a ++ b) = (walkIdx n a).bind (fun m => walkIdx m b) := by
  intro a
  induction a with
  | nil => intro n b; rfl
  | cons i a' ih =>
    intro n b
    simp only [List.cons_append, walkIdx]
    cases hch : n.children i with
    | none => rfl
    | some ch => exact ih ch b

theorem searchAux_some_true : ∀ {w : List Nat} {n : Node}, searchAux n w = some true →
    ∃ ws, toIdx w = some ws ∧ endsAt n ws = true := by
  intro w
  induction w with
  | nil =>
    intro n h
    refine ⟨[], rfl, ?_⟩
    simpa [searchAux, endsAt, walkIdx] using h
  | cons c rest ih =>
    intro n h
    simp only [searchAux] at h
    cases hc : charToIndex c with
    | none => rw [hc] at h; cases h
    | some idx =>
      rw [hc] at h
      cases hch : n.children idx with
      | none => simp only [hch] at h; cases h
      | some ch =>
        simp only [hch] at h
        obtain ⟨ws', hto, hend⟩ := ih h
        refine ⟨idx :: ws', by simp [toIdx, hc, hto], ?_⟩
        simp only [endsAt, walkIdx, hch]
        exact hend

theorem toIdx_append_inv : ∀ {p s : List Nat} {ws is : List (Fin 26)},
    toIdx (p ++ s) = some ws → toIdx p = some is → ∃ ss, toIdx s = some ss ∧ ws = is ++ ss := by
  intro p
  induction p with
  | nil =>
    intro s ws is hps hp
    cases hp
    exact ⟨ws, hps, rfl⟩
  | cons c rest ih =>
    intro s ws is hps hp
    simp only [List.cons_append, toIdx] at hps hp
    cases hc : charToIndex c with
    | none => rw [hc] at hp; cases hp
    | some idx =>
      rw [hc] at hps hp
      cases hr : toIdx rest with
      | none => rw [hr] at hp; cases hp
      | some is' =>
        rw [hr] at hp
        cases hrs : toIdx (rest ++ s) with
        | none => rw [show toIdx (rest.append s) = toIdx (rest ++ s) from rfl, hrs] at hps; cases hps
        | some ws' =>
          rw [show toIdx (rest.append s) = toIdx (rest ++ s) from rfl, hrs] at hps
          cases hps
          cases hp
          obtain ⟨ss, hss, hw⟩ := ih hrs hr
          exact ⟨ss, hss, by rw [hw]; rfl⟩

theorem collect_mem : ∀ (n : Node) (cur w : List Nat),
    w ∈ collectWordsDFS n cur ↔ ∃ is, w = cur ++ ofIdx is ∧ endsAt n is = true := by
  intro n
  induction n using Node.ind with
  | h c e ih =>
    intro cur w
    rw [collectWordsDFS_mk]
    constructor
    · intro hw
      rcases List.mem_append.1 hw with h1 | h2
      · by_cases he : e = true
        · rw [if_pos he] at h1
          have hwc : w = cur := by simpa using h1
          exact ⟨[], by simpa [ofIdx] using hwc, by simp [endsAt, walkIdx, he]⟩
        · rw [if_neg he] at h1
          cases h1
      · obtain ⟨i, _, hw2⟩ := List.mem_flatMap.1 h2
        cases hci : c i with
        | none =>
          rw [hci, collectChild_none] at hw2
          cases hw2
        | some m =>
          rw [hci, collectChild_some] at hw2
          obtain ⟨is', heq, hend⟩ := (ih i m hci _ _).1 hw2
          refine ⟨i :: is', ?_, ?_⟩
          · rw [heq]
            simp [ofIdx]
          · simp only [endsAt, walkIdx, Node.children_mk, hci]
            exact hend
    · rintro ⟨is, hw, hend⟩
      cases is with
      | nil =>
        have he : e = true := by simpa [endsAt, walkIdx] using hend
        refine List.mem_append.2 (Or.inl ?_)
        rw [if_pos he]
        simp [hw, ofIdx]
      | cons i is' =>
        simp only [endsAt, walkIdx, Node.children_mk] at hend
        cases hci : c i with
        | none =>
          rw [hci] at hend
          cases hend
        | some m =>
          rw [hci] at hend
          have hend' : endsAt m is' = true := hend
          have hmem : w ∈ collectWordsDFS m (cur ++ [indexToChar i]) :=
            (ih i m hci _ _).2 ⟨is', by simp [hw, ofIdx], hend'⟩
          refine List.mem_append.2 (Or.inr ?_)
          refine List.mem_flatMap.2 ⟨i, List.mem_finRange i, ?_⟩
          rw [hci, collectChild_some]
          exact hmem

theorem lexLt_append_iff : ∀ (p s t : List Nat), (lexLt (p ++ s) (p ++ t) ↔ lexLt s t) := by
  intro p
  induction p with
  | nil => intro s t; rfl
  | cons a p' ih =>
    intro s t
    show lexLt (a :: (p' ++ s)) (a :: (p' ++ t)) ↔ lexLt s t
    simp only [lexLt, lt_self_iff_false, false_or, true_and, eq_self_iff_true]
    exact ih s t

theorem lexLt_self_append (p : List Nat) (x : Nat) (s : List Nat) :
    lexLt p (p ++ x :: s) := by
  have := (lexLt_append_iff p [] (x :: s)).2 (by trivial)
  simpa using this

theorem lexLt_append_head {a b : Nat} (hab : a < b) (p s t : List Nat) :
    lexLt (p ++ a :: s) (p ++ b :: t) :=
  (lexLt_append_iff p (a :: s) (b :: t)).2 (Or.inl hab)

theorem lexLt_irrefl : ∀ w : List Nat, ¬ lexLt w w := by
  intro w
  induction w with
  | nil => exact fun h => h
  | cons a s ih =>
    intro h
    rcases h with h1 | ⟨_, h2⟩
    · exact lt_irrefl a h1
    · exact ih h2

theorem pairwise_lexLt_flatMap (cur : List Nat) (f : Fin 26 → List (List Nat))
    (hmem : ∀ i w, w ∈ f i → ∃ s, w = cur ++ indexToChar i :: s)
    (hsorted : ∀ i, List.Pairwise lexLt (f i)) :
    List.Pairwise lexLt ((List.finRange 26).flatMap f) := by
  have key : ∀ L : List (Fin 26), L.Pairwise (· < ·) →
      List.Pairwise lexLt (L.flatMap f) := by
    intro L
    induction L with
    | nil => intro _; simp
    | cons i L' ihL =>
      intro hL
      rw [List.pairwise_cons] at hL
      rw [List.flatMap_cons, List.pairwise_append]
      refine ⟨hsorted i, ihL hL.2, ?_⟩
      intro a ha b hb
      obtain ⟨j, hj, hbj⟩ := List.mem_flatMap.1 hb
      obtain ⟨s, hs⟩ := hmem i a ha
      obtain ⟨t, ht⟩ := hmem j b hbj
      rw [hs, ht]
      refine lexLt_append_head ?_ cur s t
      have hij : i < j := hL.1 j hj
      simp only [indexToChar]
      omega
  exact key _ (List.pairwise_lt_finRange 26)

theorem collect_sorted : ∀ (n : Node) (cur : List Nat),
    List.Pairwise lexLt (collectWordsDFS n cur) := by
  intro n
  induction n using Node.ind with
  | h c e ih =>
    intro cur
    rw [collectWordsDFS_mk, List.pairwise_append]
    refine ⟨?_, ?_, ?_⟩
    · by_cases he : e = true
      · rw [if_pos he]
        simp
      · rw [if_neg he]
        simp
    · refine pairwise_lexLt_flatMap cur _ ?_ ?_
      · intro i w hw
        cases hci : c i with
        | none =>
          rw [hci, collectChild_none] at hw
          cases hw
        | some m =>
          rw [hci, collectChild_some] at hw
          obtain ⟨is', heq, _⟩ := (collect_mem m _ _).1 hw
          exact ⟨ofIdx is', by simpa using heq⟩
      · intro i
        cases hci : c i with
        | none =>
          rw [collectChild_none]
          exact List.Pairwise.nil
        | some m =>
          rw [collectChild_some]
          exact ih i m hci _
    · intro a ha b hb
      by_cases he : e = true
      · rw [if_pos he] at ha
        have hac : a = cur := by simpa using ha
        obtain ⟨j, _, hbj⟩ := List.mem_flatMap.1 hb
        cases hcj : c j with
        | none =>
          rw [hcj, collectChild_none] at hbj
          cases hbj
        | some m =>
          rw [hcj, collectChild_some] at hbj
          obtain ⟨is', heq, _⟩ := (collect_mem m _ _).1 hbj
          rw [hac, heq]
          have : cur ++ [indexToChar j] ++ ofIdx is' = cur ++ indexToChar j :: ofIdx is' := by
            simp
          rw [this]
          exact lexLt_self_append cur _ _
      · rw [if_neg he] at ha
        cases ha

theorem endsAt_append (n : Node) (a b : List (Fin 26)) :
    endsAt n (a ++ b) = match walkIdx n a with
      | none => false
      | some m => endsAt m b := by
  rw [endsAt, walkIdx_append]
  cases hw : walkIdx n a with
  | none => rfl
  | some m => rfl

/-- C5: for a lowercase prefix `p`, `CollectAllWordsStartingWith p`
completes and returns exactly the words `w` with `Search w = true` and
`p` a prefix of `w`, strictly sorted lexicographically and therefore
without duplicates; when the path for `p` does not exist it returns the
empty sequence. -/
theorem c5_collect (t : Trie) (p : List Nat) (hp : allLower p = true) :
    ∃ res, Trie.CollectAllWordsStartingWith t p = some res ∧
      (∀ w, w ∈ res ↔ (Trie.Search t w = some true ∧ isPre p w)) ∧
      List.Pairwise lexLt res ∧ res.Nodup ∧
      (Trie.StartsWith t p = some false → res = []) := by
  obtain ⟨is, his⟩ := allLower_toIdx hp
  rw [Trie.CollectAllWordsStartingWith, collectPathAux_toIdx his]
  cases hwalk : walkIdx t.root is with
  | none =>
    refine ⟨[], rfl, ?_, List.Pairwise.nil, List.nodup_nil, fun _ => rfl⟩
    intro w
    simp only [List.not_mem_nil, false_iff, not_and]
    intro hsw
    rintro ⟨s, rfl⟩
    obtain ⟨ws, hws, hend⟩ := searchAux_some_true hsw
    obtain ⟨ss, hss, rfl⟩ := toIdx_append_inv hws his
    rw [endsAt_append, hwalk] at hend
    cases hend
  | some m =>
    refine ⟨collectWordsDFS m p, rfl, ?_, collect_sorted m p, ?_, ?_⟩
    · intro w
      rw [collect_mem]
      constructor
      · rintro ⟨ss, rfl, hend⟩
        refine ⟨?_, ofIdx ss, rfl⟩
        have hto : toIdx (p ++ ofIdx ss) = some (is ++ ss) :=
          toIdx_append his (toIdx_ofIdx ss)
        rw [Trie.Search, searchAux_toIdx hto, endsAt_append, hwalk]
        rw [show (match some m with
          | none => false
          | some mm => endsAt mm ss) = endsAt m ss from rfl, hend]
      · rintro ⟨hsw, s, rfl⟩
        obtain ⟨ws, hws, hend⟩ := searchAux_some_true hsw
        obtain ⟨ss, hss, rfl⟩ := toIdx_append_inv hws his
        refine ⟨ss, by rw [ofIdx_toIdx hss], ?_⟩
        rw [endsAt_append, hwalk] at hend
        exact hend
    · refine (collect_sorted m p).imp ?_
      intro a b hab heq
      exact lexLt_irrefl b (heq ▸ hab)
    · intro hsw
      rw [Trie.StartsWith, startsWithAux_toIdx his] at hsw
      have hfx : pathEx t.root is = false := Option.some.inj hsw
      rw [pathEx, hwalk] at hfx
      cases hfx

theorem c5_collect_witness :
    allLower [97] = true ∧
      ∃ res, Trie.CollectAllWordsStartingWith
          (run [Op.ins [97, 98], Op.ins [97]]) [97] = some res ∧
        (∀ w, w ∈ res ↔ (Trie.Search (run [Op.ins [97, 98], Op.ins [97]]) w = some true ∧
          isPre [97] w)) ∧
        List.Pairwise lexLt res ∧ res.Nodup ∧
        (Trie.StartsWith (run [Op.ins [97, 98], Op.ins [97]]) [97] = some false → res = []) :=
  ⟨by decide, c5_collect (run [Op.ins [97, 98], Op.ins [97]]) [97] (by decide)⟩

/-! ### Heap: list access toolkit -/

theorem mem_iff_getD {l : List Int} {x : Int} :
    x ∈ l ↔ ∃ k, k < l.length ∧ l.getD k 0 = x := by
  rw [List.mem_iff_getElem]
  constructor
  · rintro ⟨n, hn, rfl⟩
    exact ⟨n, hn, List.getD_eq_getElem l 0 hn⟩
  · rintro ⟨k, hk, hx⟩
    exact ⟨k, hk, by rw [← List.getD_eq_getElem l 0 hk, hx]⟩

theorem length_swapL (l : List Int) (i j : Nat) : (swapL l i j).length = l.length := by
  simp [swapL]

theorem getD_swapL {l : List Int} {i j : Nat} (hi : i < l.length) (hj : j < l.length)
    (k : Nat) :
    (swapL l i j).getD k 0 =
      if k = j then l.getD i 0 else if k = i then l.getD j 0 else l.getD k 0 := by
  by_cases hkj : k = j
  · subst hkj
    rw [if_pos rfl, swapL, List.getD_eq_getElem _ _ (by simp [hj]), List.getElem_set]
    simp
  · by_cases hki : k = i
    · subst hki
      rw [if_neg hkj, if_pos rfl, swapL, List.getD_eq_getElem _ _ (by simp [hi]),
        List.getElem_set, if_neg (fun h => hkj h.symm), List.getElem_set, if_pos rfl]
    · rw [if_neg hkj, if_neg hki, swapL, List.getD_eq_getElem?_getD, List.getElem?_set,
        if_neg (fun h => hkj h.symm), List.getElem?_set, if_neg (fun h => hki h.symm),
        ← List.getD_eq_getElem?_getD]

theorem mem_swapL {l : List Int} {i j : Nat} (hi : i < l.length) (hj : j < l.length)
    (x : Int) : x ∈ swapL l i j ↔ x ∈ l := by
  rw [mem_iff_getD, mem_iff_getD, length_swapL]
  constructor
  · rintro ⟨k, hk, hx⟩
    rw [getD_swapL hi hj] at hx
    by_cases hkj : k = j
    · rw [if_pos hkj] at hx
      exact ⟨i, hi, hx⟩
    · rw [if_neg hkj] at hx
      by_cases hki : k = i
      · rw [if_pos hki] at hx
        exact ⟨j, hj, hx⟩
      · rw [if_neg hki] at hx
        exact ⟨k, hk, hx⟩
  · rintro ⟨k, hk, hx⟩
    by_cases hki : k = i
    · refine ⟨j, hj, ?_⟩
      rw [getD_swapL hi hj, if_pos rfl, ← hki]
      exact hx
    · by_cases hkj : k = j
      · refine ⟨i, hi, ?_⟩
        rw [getD_swapL hi hj]
        by_cases hij : i = j
        · rw [if_pos hij, hij, ← hkj]
          exact hx
        · rw [if_neg hij, if_pos rfl, ← hkj]
          exact hx
      · refine ⟨k, hk, ?_⟩
        rw [getD_swapL hi hj, if_neg hkj, if_neg hki]
        exact hx

theorem getD_take {l : List Int} {m k : Nat} (h : k < m) :
    (l.take m).getD k 0 = l.getD k 0 := by
  rw [List.getD_eq_getElem?_getD, List.getD_eq_getElem?_getD, List.getElem?_take,
    if_pos h]

theorem getD_append_lt {l : List Int} {x : Int} {k : Nat} (h : k < l.length) :
    (l ++ [x]).getD k 0 = l.getD k 0 := by
  rw [List.getD_eq_getElem?_getD, List.getD_eq_getElem?_getD, List.getElem?_append_left h]

theorem getD_append_len {l : List Int} {x : Int} : (l ++ [x]).getD l.length 0 = x := by
  rw [List.getD_eq_getElem _ _ (by simp)]
  exact List.getElem_concat_length l x _ rfl _

/-! ### Heap: structural lemmas for `Swap` and `Push` -/

theorem Swap_items (h : ItemHeap) (i j : Nat) :
    (h.Swap i j).items = swapL h.items i j := rfl

theorem Swap_index (h : ItemHeap) (i j : Nat) :
    (h.Swap i j).index =
      Function.update (Function.update h.index ((swapL h.items i j).getD i 0) (some i))
        ((swapL h.items i j).getD j 0) (some j) := rfl

theorem getD_swapL_i {l : List Int} {i j : Nat} (hi : i < l.length) (hj : j < l.length) :
    (swapL l i j).getD i 0 = l.getD j 0 := by
  rw [getD_swapL hi hj]
  by_cases hij : i = j
  · rw [if_pos hij, hij]
  · rw [if_neg hij, if_pos rfl]

theorem getD_swapL_j {l : List Int} {i j : Nat} (hi : i < l.length) (hj : j < l.length) :
    (swapL l i j).getD j 0 = l.getD i 0 := by
  rw [getD_swapL hi hj, if_pos rfl]

theorem Synced_posInj {h : ItemHeap} (hs : Synced h) {a b : Nat}
    (ha : a < h.items.length) (hb : b < h.items.length)
    (he : h.items.getD a 0 = h.items.getD b 0) : a = b := by
  have h1 := hs.1 a ha
  rw [he, hs.1 b hb] at h1
  exact (Option.some.inj h1).symm

theorem Synced_swap {h : ItemHeap} (hs : Synced h) {i j : Nat}
    (hi : i < h.items.length) (hj : j < h.items.length) : Synced (h.Swap i j) := by
  have hgi : (swapL h.items i j).getD i 0 = h.items.getD j 0 := getD_swapL_i hi hj
  have hgj : (swapL h.items i j).getD j 0 = h.items.getD i 0 := getD_swapL_j hi hj
  constructor
  · intro k hk
    rw [Swap_items, length_swapL] at hk
    rw [Swap_items, Swap_index]
    by_cases hkj : k = j
    · rw [hkj, Function.update_same]
    · have hneqj : (swapL h.items i j).getD k 0 ≠ (swapL h.items i j).getD j 0 := by
        rw [hgj, getD_swapL hi hj, if_neg hkj]
        by_cases hki : k = i
        · rw [if_pos hki]
          intro he
          exact hkj (hki.trans (Synced_posInj hs hj hi he).symm)
        · rw [if_neg hki]
          intro he
          exact hki (Synced_posInj hs hk hi he)
      rw [Function.update_noteq hneqj]
      by_cases hki : k = i
      · rw [hki, Function.update_same]
      · have hneqi : (swapL h.items i j).getD k 0 ≠ (swapL h.items i j).getD i 0 := by
          rw [hgi, getD_swapL hi hj, if_neg hkj, if_neg hki]
          intro he
          exact hkj (Synced_posInj hs hk hj he)
        rw [Function.update_noteq hneqi, getD_swapL hi hj, if_neg hkj, if_neg hki]
        exact hs.1 k hk
  · intro v k hvk
    rw [Swap_index] at hvk
    rw [Swap_items, length_swapL]
    by_cases hvj : v = (swapL h.items i j).getD j 0
    · rw [hvj, Function.update_same] at hvk
      cases hvk
      exact ⟨hj, hvj.symm⟩
    · rw [Function.update_noteq hvj] at hvk
      by_cases hvi : v = (swapL h.items i j).getD i 0
      · rw [hvi, Function.update_same] at hvk
        cases hvk
        exact ⟨hi, hvi.symm⟩
      · rw [Function.update_noteq hvi] at hvk
        obtain ⟨hk, hv⟩ := hs.2 v k hvk
        have hkj : k ≠ j := fun he => hvi (by rw [hgi, ← hv, he])
        have hki : k ≠ i := fun he => hvj (by rw [hgj, ← hv, he])
        refine ⟨hk, ?_⟩
        rw [getD_swapL hi hj, if_neg hkj, if_neg hki]
        exact hv

theorem Push_items (h : ItemHeap) (x : Int) : (h.Push x).items = h.items ++ [x] := rfl

theorem Synced_push {h : ItemHeap} (hs : Synced h) {x : Int} (hx : x ∉ h.items) :
    Synced (h.Push x) := by
  constructor
  · intro k hk
    rw [Push_items, List.length_append, List.length_singleton] at hk
    show Function.update h.index x (some h.items.length) ((h.items ++ [x]).getD k 0) = some k
    by_cases hkl : k = h.items.length
    · rw [hkl, getD_append_len, Function.update_same]
    · have hk' : k < h.items.length := by omega
      rw [getD_append_lt hk']
      have hne : h.items.getD k 0 ≠ x := by
        intro he
        exact hx (mem_iff_getD.2 ⟨k, hk', he⟩)
      rw [Function.update_noteq hne]
      exact hs.1 k hk'
  · intro v k hvk
    rw [show (h.Push x).index = Function.update h.index x (some h.items.length) from rfl]
      at hvk
    rw [Push_items, List.length_append, List.length_singleton]
    by_cases hvx : v = x
    · rw [hvx, Function.update_same] at hvk
      cases hvk
      exact ⟨by omega, by rw [getD_append_len, hvx]⟩
    · rw [Function.update_noteq hvx] at hvk
      obtain ⟨hk, hv⟩ := hs.2 v k hvk
      exact ⟨by omega, by rw [getD_append_lt hk]; exact hv⟩

/-! ### Heap: sift-up correctness -/

theorem almostUp_swap {l : List Int} {j : Nat} (hj0 : j ≠ 0) (hj : j < l.length)
    (hau : almostUp l j) (hlt : l.getD j 0 < l.getD ((j - 1) / 2) 0) :
    almostUp (swapL l ((j - 1) / 2) j) ((j - 1) / 2) := by
  have hij : (j - 1) / 2 < j := by omega
  have hi : (j - 1) / 2 < l.length := lt_trans hij hj
  have hgi : (swapL l ((j - 1) / 2) j).getD ((j - 1) / 2) 0 = l.getD j 0 :=
    getD_swapL_i hi hj
  have hgj : (swapL l ((j - 1) / 2) j).getD j 0 = l.getD ((j - 1) / 2) 0 :=
    getD_swapL_j hi hj
  constructor
  · intro k hk0 hklen hki
    rw [length_swapL] at hklen
    by_cases hkj : k = j
    · rw [hkj, hgj, hgi]
      exact le_of_lt hlt
    · rw [getD_swapL hi hj k, if_neg hkj, if_neg hki]
      by_cases hpkj : (k - 1) / 2 = j
      · rw [getD_swapL hi hj ((k - 1) / 2), if_pos hpkj]
        exact hau.2 (by omega) k hklen hpkj
      · by_cases hpki : (k - 1) / 2 = (j - 1) / 2
        · rw [getD_swapL hi hj ((k - 1) / 2), if_neg hpkj, if_pos hpki]
          have hedge := hau.1 k hk0 hklen hkj
          rw [hpki] at hedge
          exact le_trans (le_of_lt hlt) hedge
        · rw [getD_swapL hi hj ((k - 1) / 2), if_neg hpkj, if_neg hpki]
          exact hau.1 k hk0 hklen hkj
  · intro hi0 c hc hpc
    rw [length_swapL] at hc
    have hgnej : ((j - 1) / 2 - 1) / 2 ≠ j := by omega
    have hgne : ((j - 1) / 2 - 1) / 2 ≠ (j - 1) / 2 := by omega
    rw [getD_swapL hi hj (((j - 1) / 2 - 1) / 2), if_neg hgnej, if_neg hgne]
    have hedge_i := hau.1 ((j - 1) / 2) hi0 hi (by omega)
    by_cases hcj : c = j
    · rw [hcj, hgj]
      exact hedge_i
    · have hcne : c ≠ (j - 1) / 2 := by omega
      rw [getD_swapL hi hj c, if_neg hcj, if_neg hcne]
      have hedge_c := hau.1 c (by omega) hc hcj
      rw [hpc] at hedge_c
      exact le_trans hedge_i hedge_c

theorem heapUp_post : ∀ (j : Nat) (h : ItemHeap), j < h.items.length → Synced h →
    almostUp h.items j →
    (heapUp h j).items.length = h.items.length ∧ Synced (heapUp h j) ∧
    (∀ x, x ∈ (heapUp h j).items ↔ x ∈ h.items) ∧ heapOrd (heapUp h j).items := by
  intro j
  induction j using Nat.strong_induction_on with
  | _ j ih =>
    intro h hj hs hau
    by_cases hj0 : j = 0
    · rw [heapUp, dif_pos hj0]
      refine ⟨rfl, hs, fun x => Iff.rfl, ?_⟩
      intro k hk0 hklen
      exact hau.1 k hk0 hklen (by omega)
    · rw [heapUp]
      simp only [dif_neg hj0]
      by_cases hl : h.Less j ((j - 1) / 2) = true
      · rw [if_pos hl]
        have hij : (j - 1) / 2 < j := by omega
        have hi : (j - 1) / 2 < h.items.length := lt_trans hij hj
        have hlt : h.items.getD j 0 < h.items.getD ((j - 1) / 2) 0 := by
          simpa [ItemHeap.Less] using hl
        obtain ⟨hL, hS, hM, hO⟩ := ih ((j - 1) / 2) hij (h.Swap ((j - 1) / 2) j)
          (by rw [Swap_items, length_swapL]; exact hi)
          (Synced_swap hs hi hj)
          (by rw [Swap_items]; exact almostUp_swap hj0 hj hau hlt)
        refine ⟨?_, hS, ?_, hO⟩
        · rw [hL, Swap_items, length_swapL]
        · intro x
          rw [hM x, Swap_items, mem_swapL hi hj]
      · rw [if_neg hl]
        refine ⟨rfl, hs, fun x => Iff.rfl, ?_⟩
        intro k hk0 hklen
        by_cases hkj : k = j
        · have hle : ¬ (h.items.getD j 0 < h.items.getD ((j - 1) / 2) 0) := by
            simpa [ItemHeap.Less] using hl
          rw [hkj]
          exact not_lt.1 hle
        · exact hau.1 k hk0 hklen hkj

/-! ### Heap: sift-down correctness -/

theorem almostDown_swap {l : List Int} {i j : Nat} (had : almostDown l i)
    (hij : i < j) (hjc : (j - 1) / 2 = i) (hj : j < l.length)
    (hmin : ∀ c, 0 < c → c < l.length → (c - 1) / 2 = i → l.getD j 0 ≤ l.getD c 0)
    (_hlt : l.getD j 0 < l.getD i 0) :
    almostDown (swapL l i j) j := by
  have hi : i < l.length := lt_trans hij hj
  have hgi := getD_swapL_i hi hj
  have hgj := getD_swapL_j hi hj
  constructor
  · intro k hk0 hklen hkj hpkj
    rw [length_swapL] at hklen
    by_cases hki : k = i
    · rw [hki, hgi]
      have hi0 : 0 < i := hki ▸ hk0
      have hp1 : (i - 1) / 2 ≠ j := by omega
      have hp2 : (i - 1) / 2 ≠ i := by omega
      rw [getD_swapL hi hj ((i - 1) / 2), if_neg hp1, if_neg hp2]
      exact had.2 hi0 j hj hjc
    · rw [getD_swapL hi hj k, if_neg hkj, if_neg hki]
      by_cases hpki : (k - 1) / 2 = i
      · rw [hpki, hgi]
        exact hmin k hk0 hklen hpki
      · rw [getD_swapL hi hj ((k - 1) / 2), if_neg hpkj, if_neg hpki]
        exact had.1 k hk0 hklen hki hpki
  · intro hj0 c hc hpc
    rw [length_swapL] at hc
    rw [hjc, hgi]
    have hci : c ≠ i := by omega
    have hcj : c ≠ j := by omega
    rw [getD_swapL hi hj c, if_neg hcj, if_neg hci]
    have hpcne : (c - 1) / 2 ≠ i := by rw [hpc]; omega
    have hedge := had.1 c (by omega) hc hci hpcne
    rw [hpc] at hedge
    exact hedge

theorem heapDown_branch {d : Nat}
    (IH : ∀ (h' : ItemHeap) (i' : Nat), h'.items.length - i' ≤ d →
      i' < h'.items.length → Synced h' → almostDown h'.items i' →
      downPost h' i' (heapDown h' i' h'.items.length))
    (h : ItemHeap) (i J : Nat) (hd : h.items.length - i ≤ d + 1)
    (hi : i < h.items.length) (hs : Synced h) (had : almostDown h.items i)
    (hJ1 : i < J) (hJ2 : J < h.items.length) (hJc : (J - 1) / 2 = i)
    (hJmin : ∀ c, 0 < c → c < h.items.length → (c - 1) / 2 = i →
      h.items.getD J 0 ≤ h.items.getD c 0) :
    downPost h i (if h.Less J i = true then heapDown (h.Swap i J) J h.items.length
      else (h, i)) := by
  by_cases hless : h.Less J i = true
  · rw [if_pos hless]
    have hlt : h.items.getD J 0 < h.items.getD i 0 := by
      simpa [ItemHeap.Less] using hless
    have hlen' : (h.Swap i J).items.length = h.items.length := by
      rw [Swap_items, length_swapL]
    have hIH := IH (h.Swap i J) J (by rw [hlen']; omega) (by rw [hlen']; exact hJ2)
      (Synced_swap hs hi hJ2)
      (by rw [Swap_items]; exact almostDown_swap had hJ1 hJc hJ2 hJmin hlt)
    rw [hlen'] at hIH
    obtain ⟨hL, hS, hM, hle, hEq, hF, hG⟩ := hIH
    refine ⟨by rw [hL, hlen'], hS, ?_, by omega, ?_, ?_, ?_⟩
    · intro x
      rw [hM x, Swap_items, mem_swapL hi hJ2]
    · intro h2
      omega
    · intro k hk0 hk hki
      by_cases hkJ : k = J
      · by_cases hrJ : (heapDown (h.Swap i J) J h.items.length).2 = J
        · have hr1 := (hEq hrJ).1
          rw [hkJ, hr1, Swap_items, hJc, getD_swapL_i hi hJ2, getD_swapL_j hi hJ2]
          exact le_of_lt hlt
        · have hgJ := hG hrJ (by omega)
          rw [hkJ]
          exact hgJ
      · exact hF k hk0 (by rw [hlen']; exact hk) hkJ
    · intro _ hi0
      exact hF i hi0 (by rw [hlen']; exact hi) (by omega)
  · rw [if_neg hless]
    have hge : h.items.getD i 0 ≤ h.items.getD J 0 := by
      have hnl : ¬ (h.items.getD J 0 < h.items.getD i 0) := by
        simpa [ItemHeap.Less] using hless
      exact not_lt.1 hnl
    have hchild : ∀ c, 0 < c → c < h.items.length → (c - 1) / 2 = i →
        h.items.getD i 0 ≤ h.items.getD c 0 := fun c hc0 hc hpc =>
      le_trans hge (hJmin c hc0 hc hpc)
    refine ⟨rfl, hs, fun x => Iff.rfl, le_refl i, fun _ => ⟨rfl, hchild⟩, ?_, ?_⟩
    · intro k hk0 hk hki
      by_cases hpk : (k - 1) / 2 = i
      · rw [hpk]
        exact hchild k hk0 hk hpk
      · exact had.1 k hk0 hk hki hpk
    · intro hcon _
      exact absurd rfl hcon

theorem heapDown_post : ∀ (d : Nat) (h : ItemHeap) (i : Nat), h.items.length - i ≤ d →
    i < h.items.length → Synced h → almostDown h.items i →
    downPost h i (heapDown h i h.items.length) := by
  intro d
  induction d with
  | zero =>
    intro h i hd hi _ _
    exact absurd hi (by omega)
  | succ d ihd =>
    intro h i hd hi hs had
    rw [heapDown]
    by_cases h1 : 2 * i + 1 < h.items.length
    · simp only [dif_pos h1]
      by_cases hsel : 2 * i + 2 < h.items.length ∧ h.Less (2 * i + 2) (2 * i + 1) = true
      · rw [if_pos hsel]
        refine heapDown_branch ihd h i (2 * i + 2) hd hi hs had (by omega) hsel.1 (by omega) ?_
        intro c hc0 hc hpc
        have hcc : c = 2 * i + 1 ∨ c = 2 * i + 2 := by omega
        rcases hcc with rfl | rfl
        · exact le_of_lt (by simpa [ItemHeap.Less] using hsel.2)
        · exact le_refl _
      · rw [if_neg hsel]
        refine heapDown_branch ihd h i (2 * i + 1) hd hi hs had (by omega) h1 (by omega) ?_
        intro c hc0 hc hpc
        have hcc : c = 2 * i + 1 ∨ c = 2 * i + 2 := by omega
        rcases hcc with rfl | rfl
        · exact le_refl _
        · have hnl : ¬ (h.Less (2 * i + 2) (2 * i + 1) = true) := fun hc2 => hsel ⟨hc, hc2⟩
          have hnl2 : ¬ (h.items.getD (2 * i + 2) 0 < h.items.getD (2 * i + 1) 0) := by
            simpa [ItemHeap.Less] using hnl
          exact not_lt.1 hnl2
    · simp only [dif_neg h1]
      refine ⟨rfl, hs, fun x => Iff.rfl, le_refl i, fun _ => ⟨rfl, ?_⟩, ?_, ?_⟩
      · intro c hc0 hc hpc
        omega
      · intro k hk0 hk hki
        by_cases hpk : (k - 1) / 2 = i
        · omega
        · exact had.1 k hk0 hk hki hpk
      · intro hcon _
        exact absurd rfl hcon

theorem heapFix_post {h : ItemHeap} {i : Nat} (hi : i < h.items.length) (hs : Synced h)
    (had : almostDown h.items i) :
    (heapFix h i).items.length = h.items.length ∧ Synced (heapFix h i) ∧
    (∀ x, x ∈ (heapFix h i).items ↔ x ∈ h.items) ∧ heapOrd (heapFix h i).items := by
  obtain ⟨hL, hS, hM, hle, hEq, hF, hG⟩ :=
    heapDown_post h.items.length h i (by omega) hi hs had
  rw [heapFix]
  simp only [ItemHeap.Len]
  by_cases hgt : (heapDown h i h.items.length).2 > i
  · rw [if_pos hgt]
    refine ⟨hL, hS, hM, ?_⟩
    intro k hk0 hk
    rw [hL] at hk
    by_cases hki : k = i
    · rw [hki]
      by_cases hi0 : 0 < i
      · exact hG (by omega) hi0
      · exact absurd (hki ▸ hk0) (by omega)
    · exact hF k hk0 hk hki
  · rw [if_neg hgt]
    have heq2 : (heapDown h i h.items.length).2 = i := by omega
    obtain ⟨hr1, hchild⟩ := hEq heq2
    rw [hr1]
    have hau : almostUp h.items i := by
      constructor
      · intro k hk0 hk hki
        by_cases hpk : (k - 1) / 2 = i
        · rw [hpk]
          exact hchild k hk0 hk hpk
        · exact had.1 k hk0 hk hki hpk
      · exact had.2
    exact heapUp_post i h hi hs hau

/-! ### Heap: `Insert` and `Remove` preserve the invariants -/

theorem almostUp_push {l : List Int} {x : Int} (ho : heapOrd l) :
    almostUp (l ++ [x]) l.length := by
  constructor
  · intro k hk0 hklen hkl
    have hk : k < l.length := by
      rw [List.length_append, List.length_singleton] at hklen
      omega
    have hp : (k - 1) / 2 < l.length := by omega
    rw [getD_append_lt hk, getD_append_lt hp]
    exact ho k hk0 hk
  · intro h0 c hc hpc
    rw [List.length_append, List.length_singleton] at hc
    omega

theorem Insert_post {h : ItemHeap} (hs : Synced h) (ho : heapOrd h.items) {x : Int}
    (hx : x ∉ h.items) :
    (h.Insert x).items.length = h.items.length + 1 ∧ Synced (h.Insert x) ∧
    heapOrd (h.Insert x).items ∧
    (∀ y, y ∈ (h.Insert x).items ↔ (y ∈ h.items ∨ y = x)) := by
  have h1 : (h.Push x).items.length = h.items.length + 1 := by
    rw [Push_items, List.length_append, List.length_singleton]
  have hIdef : h.Insert x = heapUp (h.Push x) h.items.length := by
    show heapUp (h.Push x) ((h.Push x).items.length - 1) = _
    rw [h1, Nat.add_sub_cancel]
  obtain ⟨hL, hS, hM, hO⟩ := heapUp_post h.items.length (h.Push x)
    (by rw [h1]; omega) (Synced_push hs hx)
    (by rw [Push_items]; exact almostUp_push ho)
  rw [hIdef]
  refine ⟨by rw [hL, h1], hS, hO, ?_⟩
  intro y
  rw [hM y, Push_items, List.mem_append, List.mem_singleton]

theorem Remove_eq {h : ItemHeap} {x : Int} {i : Nat} (hix : h.index x = some i) :
    h.Remove x = if i < (removeMid h x i).items.length then (true, heapFix (removeMid h x i) i)
      else (true, removeMid h x i) := by
  rw [ItemHeap.Remove, hix]
  rfl

theorem remove_core {h : ItemHeap} (hs : Synced h) (ho : heapOrd h.items) {x : Int}
    {i : Nat} (hi : i < h.items.length) (hgx : h.items.getD i 0 = x) :
    Synced (removeMid h x i) ∧ (removeMid h x i).items.length = h.items.length - 1 ∧
    x ∉ (removeMid h x i).items ∧
    (∀ y, y ∈ (removeMid h x i).items ↔ (y ∈ h.items ∧ y ≠ x)) ∧
    (i < h.items.length - 1 → almostDown (removeMid h x i).items i) ∧
    (¬ i < h.items.length - 1 → heapOrd (removeMid h x i).items) := by
  have hlast : h.items.length - 1 < h.items.length := by omega
  have hS1 : Synced (h.Swap i (h.items.length - 1)) := Synced_swap hs hi hlast
  have hlen1 : (h.Swap i (h.items.length - 1)).items.length = h.items.length := by
    rw [Swap_items, length_swapL]
  have hgl : (h.Swap i (h.items.length - 1)).items.getD (h.items.length - 1) 0 = x := by
    rw [Swap_items, getD_swapL_j hi hlast, hgx]
  have hglen : (removeMid h x i).items.length = h.items.length - 1 := by
    show ((h.Swap i (h.items.length - 1)).items.take (h.items.length - 1)).length
      = h.items.length - 1
    rw [List.length_take, hlen1]
    omega
  have hgd : ∀ k, k < h.items.length - 1 →
      (removeMid h x i).items.getD k 0 =
        (h.Swap i (h.items.length - 1)).items.getD k 0 := by
    intro k hk
    show ((h.Swap i (h.items.length - 1)).items.take (h.items.length - 1)).getD k 0 = _
    exact getD_take hk
  have hne : ∀ k, k < h.items.length - 1 →
      (removeMid h x i).items.getD k 0 ≠ x := by
    intro k hk heq
    rw [hgd k hk, ← hgl] at heq
    have := Synced_posInj hS1 (by omega : k < (h.Swap i (h.items.length - 1)).items.length)
      (by rw [hlen1]; exact hlast) heq
    omega
  have hSm : Synced (removeMid h x i) := by
    constructor
    · intro k hk
      rw [hglen] at hk
      show Function.update (h.Swap i (h.items.length - 1)).index x none
        ((removeMid h x i).items.getD k 0) = some k
      rw [Function.update_noteq (hne k hk), hgd k hk]
      exact hS1.1 k (by omega)
    · intro v k hvk
      rw [hglen]
      by_cases hvx : v = x
      · rw [hvx] at hvk
        rw [show (removeMid h x i).index = Function.update
          (h.Swap i (h.items.length - 1)).index x none from rfl,
          Function.update_same] at hvk
        cases hvk
      · rw [show (removeMid h x i).index = Function.update
          (h.Swap i (h.items.length - 1)).index x none from rfl,
          Function.update_noteq hvx] at hvk
        obtain ⟨hk, hv⟩ := hS1.2 v k hvk
        have hkne : k ≠ h.items.length - 1 := by
          intro hkl
          rw [hkl, hgl] at hv
          exact hvx hv.symm
        rw [hlen1] at hk
        refine ⟨by omega, ?_⟩
        rw [hgd k (by omega)]
        exact hv
  have hxm : x ∉ (removeMid h x i).items := by
    intro hmem
    obtain ⟨k, hk, hgk⟩ := mem_iff_getD.1 hmem
    rw [hglen] at hk
    exact hne k hk (by rw [← hgk]; exact (hgd k hk).symm ▸ rfl)
  have hmm : ∀ y, y ∈ (removeMid h x i).items ↔ (y ∈ h.items ∧ y ≠ x) := by
    intro y
    constructor
    · intro hmem
      obtain ⟨k, hk, hgk⟩ := mem_iff_getD.1 hmem
      rw [hglen] at hk
      have hyne : y ≠ x := by
        rw [← hgk]
        exact hne k hk
      refine ⟨?_, hyne⟩
      rw [hgd k hk] at hgk
      have : y ∈ (h.Swap i (h.items.length - 1)).items :=
        mem_iff_getD.2 ⟨k, by omega, hgk⟩
      rw [Swap_items, mem_swapL hi hlast] at this
      exact this
    · rintro ⟨hmem, hyne⟩
      obtain ⟨k, hk, hgk⟩ := mem_iff_getD.1 hmem
      have hki : k ≠ i := by
        intro hkeq
        rw [hkeq, hgx] at hgk
        exact hyne hgk.symm
      by_cases hkl : k = h.items.length - 1
      · have hil : i < h.items.length - 1 := by omega
        refine mem_iff_getD.2 ⟨i, by rw [hglen]; omega, ?_⟩
        rw [hgd i (by omega), Swap_items, getD_swapL_i hi hlast, ← hkl]
        exact hgk
      · refine mem_iff_getD.2 ⟨k, by rw [hglen]; omega, ?_⟩
        rw [hgd k (by omega), Swap_items, getD_swapL hi hlast k, if_neg hkl, if_neg hki]
        exact hgk
  have hval : ∀ k, k < h.items.length - 1 → k ≠ i →
      (removeMid h x i).items.getD k 0 = h.items.getD k 0 := by
    intro k hk hki
    rw [hgd k hk, Swap_items, getD_swapL hi hlast k, if_neg (by omega), if_neg hki]
  refine ⟨hSm, hglen, hxm, hmm, ?_, ?_⟩
  · intro hil
    constructor
    · intro k hk0 hk hki hpki
      rw [hglen] at hk
      have hpk : (k - 1) / 2 < h.items.length - 1 := by omega
      rw [hval k hk hki, hval ((k - 1) / 2) hpk hpki]
      exact ho k hk0 (by omega)
    · intro hi0 c hc hpc
      rw [hglen] at hc
      have hpar : (i - 1) / 2 < h.items.length - 1 := by omega
      have hcne : c ≠ i := by omega
      rw [hval c hc hcne, hval ((i - 1) / 2) hpar (by omega)]
      have h1 := ho i hi0 hi
      have h2 := ho c (by omega) (by omega)
      rw [hpc] at h2
      exact le_trans h1 h2
  · intro hnil
    have hieq : i = h.items.length - 1 := by omega
    intro k hk0 hk
    rw [hglen] at hk
    have hpk : (k - 1) / 2 < h.items.length - 1 := by omega
    rw [hval k hk (by omega), hval ((k - 1) / 2) hpk (by omega)]
    exact ho k hk0 (by omega)

theorem Remove_inv {h : ItemHeap} (hs : Synced h) (ho : heapOrd h.items) (x : Int) :
    Synced (h.Remove x).2 ∧ heapOrd (h.Remove x).2.items ∧
    (x ∉ h.items → h.Remove x = (false, h)) ∧
    (x ∈ h.items → (h.Remove x).1 = true ∧ x ∉ (h.Remove x).2.items ∧
      (h.Remove x).2.items.length + 1 = h.items.length ∧
      (∀ y, y ∈ (h.Remove x).2.items ↔ (y ∈ h.items ∧ y ≠ x))) := by
  cases hix : h.index x with
  | none =>
    have hre : h.Remove x = (false, h) := by
      rw [ItemHeap.Remove, hix]
    rw [hre]
    refine ⟨hs, ho, fun _ => rfl, ?_⟩
    intro hmem
    obtain ⟨k, hk, hgk⟩ := mem_iff_getD.1 hmem
    rw [← hgk, hs.1 k hk] at hix
    cases hix
  | some i =>
    obtain ⟨hi, hgx⟩ := hs.2 x i hix
    obtain ⟨hSm, hglen, hxm, hmm, hAD, hOrd⟩ := remove_core hs ho hi hgx
    have hmem : x ∈ h.items := mem_iff_getD.2 ⟨i, hi, hgx⟩
    rw [Remove_eq hix]
    by_cases hcase : i < h.items.length - 1
    · rw [if_pos (by rw [hglen]; exact hcase)]
      obtain ⟨hL, hS, hM, hO⟩ := heapFix_post (by rw [hglen]; exact hcase) hSm (hAD hcase)
      refine ⟨hS, hO, fun habs => absurd hmem habs, ?_⟩
      intro _
      refine ⟨rfl, ?_, ?_, ?_⟩
      · intro hxm2
        exact hxm ((hM x).1 hxm2)
      · show (heapFix (removeMid h x i) i).items.length + 1 = h.items.length
        rw [hL, hglen]
        omega
      · intro y
        show y ∈ (heapFix (removeMid h x i) i).items ↔ _
        rw [hM y]
        exact hmm y
    · rw [if_neg (by rw [hglen]; exact hcase)]
      refine ⟨hSm, hOrd hcase, fun habs => absurd hmem habs, ?_⟩
      intro _
      exact ⟨rfl, hxm, by rw [hglen]; omega, hmm⟩

theorem heapInv {h : ItemHeap} (hr : ReachableHeap h) : Synced h ∧ heapOrd h.items := by
  induction hr with
  | new =>
    refine ⟨⟨?_, ?_⟩, ?_⟩
    · intro k hk
      simp [NewItemHeap] at hk
    · intro v k hvk
      cases hvk
    · intro k hk0 hk
      simp [NewItemHeap] at hk
  | insert h x hr hx ih =>
    obtain ⟨hs, ho⟩ := ih
    obtain ⟨_, hS, hO, _⟩ := Insert_post hs ho hx
    exact ⟨hS, hO⟩
  | remove h x hr ih =>
    obtain ⟨hs, ho⟩ := ih
    obtain ⟨hS, hO, _, _⟩ := Remove_inv hs ho x
    exact ⟨hS, hO⟩

theorem root_min {l : List Int} (ho : heapOrd l) :
    ∀ k, k < l.length → l.getD 0 0 ≤ l.getD k 0 := by
  intro k
  induction k using Nat.strong_induction_on with
  | _ k ih =>
    intro hk
    by_cases hk0 : k = 0
    · rw [hk0]
    · have hp : (k - 1) / 2 < k := by omega
      exact le_trans (ih _ hp (by omega)) (ho k (by omega) hk)

/-! ### Claims C1, C2, C3 -/

/-- C1: on every reachable heap (fresh heap, distinct-value inserts,
arbitrary removes), when the heap is non-empty `GetMin` returns a present
value that is at most every present value; `GetMin` is a pure read of
`items[0]` and does not modify the heap. -/
theorem c1_getMin (h : ItemHeap) (hr : ReachableHeap h) (hne : h.items ≠ []) :
    h.GetMin ∈ h.items ∧ ∀ v ∈ h.items, h.GetMin ≤ v := by
  obtain ⟨hs, ho⟩ := heapInv hr
  have hlen : 0 < h.items.length := List.length_pos_of_ne_nil hne
  constructor
  · exact mem_iff_getD.2 ⟨0, hlen, rfl⟩
  · intro v hv
    obtain ⟨k, hk, hgk⟩ := mem_iff_getD.1 hv
    rw [← hgk]
    exact root_min ho k hk

theorem c1_getMin_witness :
    (5 : Int) ∉ NewItemHeap.items ∧
    (3 : Int) ∉ (NewItemHeap.Insert 5).items ∧
    (8 : Int) ∉ ((NewItemHeap.Insert 5).Insert 3).items ∧
    (((NewItemHeap.Insert 5).Insert 3).Insert 8).items ≠ [] ∧
    ((((NewItemHeap.Insert 5).Insert 3).Insert 8).GetMin ∈
        (((NewItemHeap.Insert 5).Insert 3).Insert 8).items ∧
      ∀ v ∈ (((NewItemHeap.Insert 5).Insert 3).Insert 8).items,
        (((NewItemHeap.Insert 5).Insert 3).Insert 8).GetMin ≤ v) := by
  refine ⟨?h5, ?h3, ?h8, ?hne, ?_⟩
  case h5 => simp [NewItemHeap]
  case h3 => simp [ItemHeap.Insert, ItemHeap.Push, NewItemHeap, heapUp]
  case h8 =>
    simp [ItemHeap.Insert, ItemHeap.Push, NewItemHeap, heapUp, ItemHeap.Swap, swapL,
      ItemHeap.Less]
  case hne =>
    simp [ItemHeap.Insert, ItemHeap.Push, NewItemHeap, heapUp, ItemHeap.Swap, swapL,
      ItemHeap.Less]
  exact c1_getMin _
    (ReachableHeap.insert _ 8
      (ReachableHeap.insert _ 3
        (ReachableHeap.insert _ 5 ReachableHeap.new (by simp [NewItemHeap]))
        (by simp [ItemHeap.Insert, ItemHeap.Push, NewItemHeap, heapUp]))
      (by simp [ItemHeap.Insert, ItemHeap.Push, NewItemHeap, heapUp, ItemHeap.Swap, swapL,
        ItemHeap.Less]))
    (by simp [ItemHeap.Insert, ItemHeap.Push, NewItemHeap, heapUp, ItemHeap.Swap, swapL,
      ItemHeap.Less])

/-- C2: on every reachable heap the index map and the item sequence are
in sync: every present value maps to a position holding it, and the key
set of the index map is exactly the set of present values.  (The
preservation proof goes through every structural mutation: `Swap`,
`Push`, sift-up, sift-down, fix, truncation.) -/
theorem c2_index_sync (h : ItemHeap) (hr : ReachableHeap h) :
    (∀ v ∈ h.items, ∃ i, h.index v = some i ∧ h.items.getD i 0 = v) ∧
    (∀ v, (h.index v).isSome = true ↔ v ∈ h.items) := by
  obtain ⟨hs, _⟩ := heapInv hr
  constructor
  · intro v hv
    obtain ⟨k, hk, hgk⟩ := mem_iff_getD.1 hv
    exact ⟨k, by rw [← hgk]; exact hs.1 k hk, hgk⟩
  · intro v
    constructor
    · intro hsome
      obtain ⟨k, hk⟩ := Option.isSome_iff_exists.1 hsome
      obtain ⟨hklt, hgv⟩ := hs.2 v k hk
      exact mem_iff_getD.2 ⟨k, hklt, hgv⟩
    · intro hv
      obtain ⟨k, hk, hgk⟩ := mem_iff_getD.1 hv
      rw [← hgk, hs.1 k hk]
      rfl

theorem c2_index_sync_witness :
    (5 : Int) ∉ NewItemHeap.items ∧
    ((∀ v ∈ (NewItemHeap.Insert 5).items, ∃ i, (NewItemHeap.Insert 5).index v = some i ∧
        (NewItemHeap.Insert 5).items.getD i 0 = v) ∧
      (∀ v, ((NewItemHeap.Insert 5).index v).isSome = true ↔
        v ∈ (NewItemHeap.Insert 5).items)) :=
  ⟨by simp [NewItemHeap],
    c2_index_sync _ (ReachableHeap.insert _ 5 ReachableHeap.new (by simp [NewItemHeap]))⟩

/-- C3: on every reachable heap, removing an absent value returns `false`
and leaves the state (items and index) entirely unchanged; removing a
present value returns `true`, the value is absent afterwards (so no
subsequent `GetMin` or iteration yields it), and the size shrinks by
exactly one. -/
theorem c3_remove (h : ItemHeap) (hr : ReachableHeap h) (x : Int) :
    (x ∉ h.items → h.Remove x = (false, h)) ∧
    (x ∈ h.items → (h.Remove x).1 = true ∧ x ∉ (h.Remove x).2.items ∧
      (h.Remove x).2.items.length + 1 = h.items.length ∧
      ((h.Remove x).2.items ≠ [] → (h.Remove x).2.GetMin ≠ x)) := by
  obtain ⟨hs, ho⟩ := heapInv hr
  obtain ⟨_, _, habs, hpres⟩ := Remove_inv hs ho x
  refine ⟨habs, ?_⟩
  intro hmem
  obtain ⟨h1, h2, h3, _⟩ := hpres hmem
  refine ⟨h1, h2, h3, ?_⟩
  intro hne heq
  have hmin : (h.Remove x).2.GetMin ∈ (h.Remove x).2.items := by
    have hlen : 0 < (h.Remove x).2.items.length := List.length_pos_of_ne_nil hne
    exact mem_iff_getD.2 ⟨0, hlen, rfl⟩
  rw [heq] at hmin
  exact h2 hmin

theorem c3_remove_witness :
    (5 : Int) ∉ NewItemHeap.items ∧
    (3 : Int) ∉ (NewItemHeap.Insert 5).items ∧
    (((NewItemHeap.Insert 5).Insert 3).Remove 7 =
        (false, (NewItemHeap.Insert 5).Insert 3) ∧ True) ∧
    ((3 : Int) ∉ ((NewItemHeap.Insert 5).Insert 3).items →
      ((NewItemHeap.Insert 5).Insert 3).Remove 3 = (false, (NewItemHeap.Insert 5).Insert 3)) ∧
    ((3 : Int) ∈ ((NewItemHeap.Insert 5).Insert 3).items →
      (((NewItemHeap.Insert 5).Insert 3).Remove 3).1 = true ∧
      (3 : Int) ∉ (((NewItemHeap.Insert 5).Insert 3).Remove 3).2.items ∧
      (((NewItemHeap.Insert 5).Insert 3).Remove 3).2.items.length + 1 =
        ((NewItemHeap.Insert 5).Insert 3).items.length ∧
      ((((NewItemHeap.Insert 5).Insert 3).Remove 3).2.items ≠ [] →
        (((NewItemHeap.Insert 5).Insert 3).Remove 3).2.GetMin ≠ 3)) := by
  have hr : ReachableHeap ((NewItemHeap.Insert 5).Insert 3) :=
    ReachableHeap.insert _ 3
      (ReachableHeap.insert _ 5 ReachableHeap.new (by simp [NewItemHeap]))
      (by simp [ItemHeap.Insert, ItemHeap.Push, NewItemHeap, heapUp])
  refine ⟨by simp [NewItemHeap],
    by simp [ItemHeap.Insert, ItemHeap.Push, NewItemHeap, heapUp], ⟨?_, trivial⟩,
    (c3_remove _ hr 3).1, (c3_remove _ hr 3).2⟩
  exact (c3_remove _ hr 7).1
    (by simp [ItemHeap.Insert, ItemHeap.Push, NewItemHeap, heapUp, ItemHeap.Swap, swapL,
      ItemHeap.Less])
